import Mathlib

/-!
Verification of the bgpcompare address-range algebra engine.

The development shallowly embeds the core of the repository:
the address value arithmetic (`network_zeros`, `network_ones`, `next`,
`previous` of classes IPv4 and IPv6 in IPAddress.h), the textual
parsers and renderers of both widths, the greedy range decomposer
(function `add` of BgpCompare.cpp), the sweep-line engine (`traverse`)
and the pipeline (`process` without its file/regex frontend).

Machine integers are modelled as `Nat` with explicit reductions modulo
powers of two wherever the C++ unsigned arithmetic may wrap.  The IPv4
address value is a `Nat` below 2 to the 32; the IPv6 value is a pair of
64-bit halves mirroring the `network`/`host` members of the source.
The width-generic functions below instantiated at W = 32 are the IPv4
member functions verbatim; the IPv6 pair versions are defined
separately from the source and bridged to the generic form.
-/

namespace BgpCompare

/-- The expression `ALLONES << (W - p)` of the source, truncated to a
W-bit word: the mask whose high `p` bits are set. -/
def maskHigh (W p : Nat) : Nat := ((2 ^ W - 1) <<< (W - p)) % 2 ^ W

/-- `IPv4::network_zeros` (IPAddress.h): zero out the low `W - p` bits.
The `p = 0` case is an explicit special case in the source (avoiding a
shift by the full register width). -/
def network_zeros (W v p : Nat) : Nat :=
  if p = 0 then 0 else v &&& maskHigh W p

/-- `IPv4::network_ones` (IPAddress.h): set the low `W - p` bits; the
complement `~mask` of the source is the xor with the all-ones word. -/
def network_ones (W v p : Nat) : Nat :=
  if p = 0 then 2 ^ W - 1 else v ||| ((2 ^ W - 1) ^^^ maskHigh W p)

/-- `next()` with the default argument: add 1, wrapping modulo 2^W. -/
def nextAddr (W v : Nat) : Nat := (v + 1) % 2 ^ W

/-- `previous()` with the default argument: subtract 1 with unsigned
wraparound. -/
def prevAddr (W v : Nat) : Nat := (v + (2 ^ W - 1)) % 2 ^ W

theorem maskHigh_eq {W p : Nat} (_hp : p ≤ W) :
    maskHigh W p = 2 ^ W - 2 ^ (W - p) := by
  unfold maskHigh
  rw [Nat.shiftLeft_eq]
  have hk : 2 ^ (W - p) ≤ 2 ^ W := Nat.pow_le_pow_right (by norm_num) (Nat.sub_le _ _)
  have h1 : 1 ≤ 2 ^ (W - p) := Nat.one_le_two_pow
  have h2 : 1 ≤ 2 ^ W := Nat.one_le_two_pow
  have hle : 2 ^ W ≤ 2 ^ W * 2 ^ (W - p) := Nat.le_mul_of_pos_right _ (by omega)
  have hexp : (2 ^ W - 1) * 2 ^ (W - p)
      = 2 ^ W * (2 ^ (W - p) - 1) + (2 ^ W - 2 ^ (W - p)) := by
    rw [Nat.sub_mul, Nat.mul_sub, one_mul, mul_one]
    omega
  rw [hexp, Nat.mul_add_mod, Nat.mod_eq_of_lt (by omega)]

theorem maskHigh_as_mul {W p : Nat} (hp : p ≤ W) :
    maskHigh W p = 2 ^ (W - p) * (2 ^ p - 1) := by
  rw [maskHigh_eq hp, Nat.mul_sub, mul_one, ← pow_add]
  rw [Nat.sub_add_cancel hp]

theorem testBit_maskHigh {W p : Nat} (hp : p ≤ W) (j : Nat) :
    (maskHigh W p).testBit j = (decide (W - p ≤ j) && decide (j < W)) := by
  rw [maskHigh_as_mul hp, Nat.testBit_mul_pow_two]
  rcases Nat.lt_or_ge j (W - p) with hj | hj
  · simp [Nat.not_le.mpr hj, hj]
  · by_cases hjW : j < W
    · have h1 : j - (W - p) < p := by omega
      simp [hj, hjW, Nat.testBit_two_pow_sub_one, h1]
    · have h1 : ¬ j - (W - p) < p := by omega
      simp [hj, hjW, Nat.testBit_two_pow_sub_one, h1]

theorem notMask_eq {W p : Nat} (hp : p ≤ W) :
    (2 ^ W - 1) ^^^ maskHigh W p = 2 ^ (W - p) - 1 := by
  apply Nat.eq_of_testBit_eq
  intro j
  rw [Nat.testBit_xor, testBit_maskHigh hp, Nat.testBit_two_pow_sub_one,
    Nat.testBit_two_pow_sub_one]
  rcases Nat.lt_or_ge j (W - p) with hj | hj
  · simp [hj, Nat.not_le.mpr hj, Nat.lt_of_lt_of_le hj (Nat.sub_le _ _)]
  · by_cases hjW : j < W <;> simp [hj, hjW, Nat.not_lt.mpr hj]

theorem zeros_eq {W s p : Nat} (hs : s < 2 ^ W) (hp : p ≤ W) :
    network_zeros W s p = 2 ^ (W - p) * (s / 2 ^ (W - p)) := by
  unfold network_zeros
  by_cases h0 : p = 0
  · subst h0
    simp [Nat.div_eq_of_lt hs]
  · rw [if_neg h0]
    apply Nat.eq_of_testBit_eq
    intro j
    rw [Nat.testBit_land, testBit_maskHigh hp, Nat.testBit_mul_pow_two,
      ← Nat.shiftRight_eq_div_pow, Nat.testBit_shiftRight]
    rcases Nat.lt_or_ge j (W - p) with hj | hj
    · simp [Nat.not_le.mpr hj, hj]
    · by_cases hjW : j < W
      · have : W - p + (j - (W - p)) = j := by omega
        simp [hj, hjW, this]
      · have hbit : s.testBit j = false :=
          Nat.testBit_lt_two_pow (Nat.lt_of_lt_of_le hs
            (Nat.pow_le_pow_right (by norm_num) (Nat.le_of_not_lt hjW)))
        simp [hj, hjW, hbit]

theorem ones_eq {W s p : Nat} (hs : s < 2 ^ W) (hp : p ≤ W) :
    network_ones W s p = network_zeros W s p + (2 ^ (W - p) - 1) := by
  unfold network_ones
  by_cases h0 : p = 0
  · subst h0
    simp [network_zeros]
  · rw [if_neg h0, notMask_eq hp, zeros_eq hs hp]
    have hlow : 2 ^ (W - p) - 1 < 2 ^ (W - p) := by
      have : 1 ≤ 2 ^ (W - p) := Nat.one_le_two_pow
      omega
    apply Nat.eq_of_testBit_eq
    intro j
    rw [Nat.testBit_lor, Nat.testBit_mul_pow_two_add _ hlow,
      Nat.testBit_two_pow_sub_one, ← Nat.shiftRight_eq_div_pow,
      Nat.testBit_shiftRight]
    rcases Nat.lt_or_ge j (W - p) with hj | hj
    · simp [hj]
    · have : W - p + (j - (W - p)) = j := by omega
      simp [hj, Nat.not_lt.mpr hj, this]

theorem zeros_le {W s p : Nat} (hs : s < 2 ^ W) (hp : p ≤ W) :
    network_zeros W s p ≤ s := by
  rw [zeros_eq hs hp]
  exact Nat.mul_div_le s (2 ^ (W - p))

theorem le_ones {W s p : Nat} (hs : s < 2 ^ W) (hp : p ≤ W) :
    s ≤ network_ones W s p := by
  rw [ones_eq hs hp, zeros_eq hs hp]
  have hmod : s % 2 ^ (W - p) < 2 ^ (W - p) := Nat.mod_lt s (Nat.two_pow_pos _)
  have hdm := Nat.div_add_mod s (2 ^ (W - p))
  omega

theorem ones_lt {W s p : Nat} (hs : s < 2 ^ W) (hp : p ≤ W) :
    network_ones W s p < 2 ^ W := by
  rw [ones_eq hs hp, zeros_eq hs hp]
  have hq : s / 2 ^ (W - p) < 2 ^ p := by
    apply Nat.div_lt_of_lt_mul
    calc s < 2 ^ W := hs
    _ = 2 ^ (W - p) * 2 ^ p := by rw [← pow_add, Nat.sub_add_cancel hp]
  have h1 : 2 ^ (W - p) * (s / 2 ^ (W - p)) ≤ 2 ^ (W - p) * (2 ^ p - 1) := by
    apply Nat.mul_le_mul_left
    omega
  have h2 : 2 ^ (W - p) * (2 ^ p - 1) = 2 ^ W - 2 ^ (W - p) := by
    rw [Nat.mul_sub, mul_one, ← pow_add, Nat.sub_add_cancel hp]
  have h3 : 2 ^ (W - p) ≤ 2 ^ W := Nat.pow_le_pow_right (by norm_num) (Nat.sub_le _ _)
  have h4 : (1 : Nat) ≤ 2 ^ (W - p) := Nat.one_le_two_pow
  omega

/-- `network_zeros` fixes exactly the values aligned at the prefix. -/
theorem zeros_self_iff {W s p : Nat} (hs : s < 2 ^ W) (hp : p ≤ W) :
    network_zeros W s p = s ↔ s % 2 ^ (W - p) = 0 := by
  rw [zeros_eq hs hp]
  have hdm := Nat.div_add_mod s (2 ^ (W - p))
  omega

theorem ones_self {W s : Nat} (hs : s < 2 ^ W) :
    network_ones W s W = s := by
  rw [ones_eq hs (Nat.le_refl W), zeros_eq hs (Nat.le_refl W)]
  simp

/-! ### The 128-bit variant, as a pair of 64-bit halves

Class `IPAddress::IPv6` stores the value as two `uint64_t` members
`network` (high half) and `host` (low half).  Its `network_zeros` and
`network_ones` branch on the prefix being 0, above 64, or at most 64,
masking one half at a time. -/

/-- The IPv6 address value: the `network`/`host` member pair. -/
structure V6 where
  network : Nat
  host : Nat
deriving DecidableEq, Repr

/-- The value a `V6` pair denotes: high half weighted by 2^64. -/
def toVal (x : V6) : Nat := x.network * 2 ^ 64 + x.host

/-- The source expression `0xffffffffffffffff << sh` on a 64-bit word. -/
def m64 (sh : Nat) : Nat := ((2 ^ 64 - 1) <<< sh) % 2 ^ 64

/-- `IPv6::network_zeros` (IPAddress.h). -/
def zeros6 (x : V6) (p : Nat) : V6 :=
  if p = 0 then ⟨0, 0⟩
  else if p > 64 then ⟨x.network, x.host &&& m64 (128 - p)⟩
  else ⟨x.network &&& m64 (64 - p), 0⟩

/-- `IPv6::network_ones` (IPAddress.h). -/
def ones6 (x : V6) (p : Nat) : V6 :=
  if p = 0 then ⟨2 ^ 64 - 1, 2 ^ 64 - 1⟩
  else if p > 64 then ⟨x.network, x.host ||| ((2 ^ 64 - 1) ^^^ m64 (128 - p))⟩
  else ⟨x.network ||| ((2 ^ 64 - 1) ^^^ m64 (64 - p)), 2 ^ 64 - 1⟩

theorem m64_eq {sh : Nat} (h : sh ≤ 64) : m64 sh = maskHigh 64 (64 - sh) := by
  unfold m64 maskHigh
  rw [Nat.sub_sub_self h]

theorem testBit_toVal (x : V6) (hh : x.host < 2 ^ 64) (j : Nat) :
    (toVal x).testBit j =
      if j < 64 then x.host.testBit j else x.network.testBit (j - 64) := by
  unfold toVal
  rw [Nat.mul_comm, Nat.testBit_mul_pow_two_add _ hh]

theorem m64_high {p : Nat} (hp : p ≤ 64) : m64 (64 - p) = maskHigh 64 p := by
  rw [m64_eq (Nat.sub_le _ _), Nat.sub_sub_self hp]

/-- Bridge: the half-wise IPv6 `network_zeros` computes the generic
width-128 `network_zeros` on the denoted value. -/
theorem toVal_zeros6 (x : V6) (hn : x.network < 2 ^ 64) (hh : x.host < 2 ^ 64)
    {p : Nat} (hp : p ≤ 128) :
    toVal (zeros6 x p) = network_zeros 128 (toVal x) p := by
  have hv : toVal x < 2 ^ 128 := by
    unfold toVal
    have : (2 : Nat) ^ 128 = 2 ^ 64 * 2 ^ 64 := by norm_num
    nlinarith
  rw [zeros_eq hv hp]
  unfold zeros6
  by_cases h0 : p = 0
  · subst h0
    rw [if_pos rfl, Nat.div_eq_of_lt hv, Nat.mul_zero]
    simp [toVal]
  · rw [if_neg h0]
    by_cases h64 : p > 64
    · rw [if_pos h64]
      have hm : m64 (128 - p) = maskHigh 64 (p - 64) := by
        rw [show (128 : Nat) - p = 64 - (p - 64) by omega]
        exact m64_high (by omega)
      have hz : x.host &&& m64 (128 - p) = network_zeros 64 x.host (p - 64) := by
        rw [hm]
        unfold network_zeros
        rw [if_neg (by omega)]
      rw [hz, zeros_eq hh (by omega)] at *
      show x.network * 2 ^ 64 + 2 ^ (64 - (p - 64)) * (x.host / 2 ^ (64 - (p - 64))) = _
      have hk : 64 - (p - 64) = 128 - p := by omega
      rw [hk]
      have hdiv : toVal x / 2 ^ (128 - p)
          = x.network * 2 ^ (64 - (128 - p)) + x.host / 2 ^ (128 - p) := by
        unfold toVal
        have : (2 : Nat) ^ 64 = 2 ^ (128 - p) * 2 ^ (64 - (128 - p)) := by
          rw [← pow_add]
          congr 1
          omega
        rw [this, ← Nat.mul_assoc, Nat.mul_comm x.network (2 ^ (128 - p)),
          Nat.mul_assoc, Nat.add_comm, Nat.add_mul_div_left _ _ (Nat.two_pow_pos _),
          Nat.add_comm]
      rw [hdiv, Nat.mul_add, ← Nat.mul_assoc, Nat.mul_comm (2 ^ (128 - p)) x.network,
        Nat.mul_assoc, ← pow_add, show 128 - p + (64 - (128 - p)) = 64 by omega]
    · rw [if_neg h64]
      have hp64 : p ≤ 64 := by omega
      have hz : x.network &&& m64 (64 - p) = network_zeros 64 x.network p := by
        rw [m64_high hp64]
        unfold network_zeros
        rw [if_neg h0]
      rw [hz, zeros_eq hn hp64]
      show (2 ^ (64 - p) * (x.network / 2 ^ (64 - p))) * 2 ^ 64 + 0 = _
      have hdiv : toVal x / 2 ^ (128 - p) = x.network / 2 ^ (64 - p) := by
        have h1 : (2 : Nat) ^ (128 - p) = 2 ^ 64 * 2 ^ (64 - p) := by
          rw [← pow_add]
          congr 1
          omega
        rw [h1, ← Nat.div_div_eq_div_mul]
        congr 1
        unfold toVal
        rw [Nat.mul_comm, Nat.mul_add_div (Nat.two_pow_pos _),
          Nat.div_eq_of_lt hh, Nat.add_zero]
      rw [hdiv, show (128 : Nat) - p = 64 - p + 64 by omega, pow_add]
      ring

/-- Bridge: the half-wise IPv6 `network_ones` computes the generic
width-128 `network_ones` on the denoted value. -/
theorem toVal_ones6 (x : V6) (hn : x.network < 2 ^ 64) (hh : x.host < 2 ^ 64)
    {p : Nat} (hp : p ≤ 128) :
    toVal (ones6 x p) = network_ones 128 (toVal x) p := by
  have hv : toVal x < 2 ^ 128 := by
    unfold toVal
    have : (2 : Nat) ^ 128 = 2 ^ 64 * 2 ^ 64 := by norm_num
    nlinarith
  rw [ones_eq hv hp, ← toVal_zeros6 x hn hh hp]
  unfold ones6 zeros6
  by_cases h0 : p = 0
  · subst h0
    show toVal ⟨2 ^ 64 - 1, 2 ^ 64 - 1⟩ = toVal ⟨0, 0⟩ + (2 ^ (128 - 0) - 1)
    unfold toVal
    norm_num
  · rw [if_neg h0, if_neg h0]
    by_cases h64 : p > 64
    · rw [if_pos h64, if_pos h64]
      have hm : m64 (128 - p) = maskHigh 64 (p - 64) := by
        rw [show (128 : Nat) - p = 64 - (p - 64) by omega]
        exact m64_high (by omega)
      have ho : x.host ||| ((2 ^ 64 - 1) ^^^ m64 (128 - p))
          = network_ones 64 x.host (p - 64) := by
        rw [hm]
        unfold network_ones
        rw [if_neg (by omega)]
      have hz : x.host &&& m64 (128 - p) = network_zeros 64 x.host (p - 64) := by
        rw [hm]
        unfold network_zeros
        rw [if_neg (by omega)]
      show x.network * 2 ^ 64 + (x.host ||| _) = x.network * 2 ^ 64 + (x.host &&& _) + _
      rw [ho, hz, ones_eq hh (by omega), show 64 - (p - 64) = 128 - p by omega]
      ring
    · rw [if_neg h64, if_neg h64]
      have hp64 : p ≤ 64 := by omega
      have ho : x.network ||| ((2 ^ 64 - 1) ^^^ m64 (64 - p))
          = network_ones 64 x.network p := by
        rw [m64_high hp64]
        unfold network_ones
        rw [if_neg h0]
      have hz : x.network &&& m64 (64 - p) = network_zeros 64 x.network p := by
        rw [m64_high hp64]
        unfold network_zeros
        rw [if_neg h0]
      show (x.network ||| _) * 2 ^ 64 + (2 ^ 64 - 1)
          = (x.network &&& _) * 2 ^ 64 + 0 + (2 ^ (128 - p) - 1)
      rw [ho, hz, ones_eq hn hp64]
      have h1 : (2 : Nat) ^ (128 - p) = 2 ^ (64 - p) * 2 ^ 64 := by
        rw [← pow_add]
        congr 1
        omega
      have h2 : (1 : Nat) ≤ 2 ^ (64 - p) := Nat.one_le_two_pow
      have h3 : (1 : Nat) ≤ 2 ^ 64 := Nat.one_le_two_pow
      rw [Nat.add_mul, h1, Nat.sub_mul, one_mul]
      omega

/-! ### Comparison kernels (BgpCompare.cpp)

The three `ComparisonKernel` subclasses, represented as a closed
variant type; the open-interval counts are C++ `int`s, hence `Int`. -/

inductive Kern
  | union
  | inter
  | diff
deriving DecidableEq, Repr

/-- The `operator()` of `UnionKernel`, `IntersectionKernel`,
`DifferenceKernel`. -/
def kernEval : Kern → Int → Int → Bool
  | .union, a, b => decide (a > 0) || decide (b > 0)
  | .inter, a, b => decide (a > 0) && decide (b > 0)
  | .diff, a, b => decide (a = 0) && decide (b > 0)

/-- The `symetric()` member of the three kernels. -/
def kernSym : Kern → Bool
  | .union => true
  | .inter => true
  | .diff => false

/-! ### Markers and the range decomposer `add` (BgpCompare.cpp)

`IPMarkerType` also has an `ipm_invalid` value produced only by the
default `IPMarker` constructor, which the pipeline never uses; the four
live variants are embedded. -/

inductive MType
  | aOpen
  | aClose
  | bOpen
  | bClose
deriving DecidableEq, Repr

structure Marker where
  ip : Nat
  type : MType
deriving DecidableEq, Repr

/-- The inner `for (int i = 0; i <= bit_length; i++)` scan of `add`:
the first prefix length `i` starting from `lo` such that the cursor is
aligned at `i` and the block's ceiling does not overshoot `stop`.  When
no prefix length up to `W` qualifies the C++ loop would spin forever;
that cannot happen for a cursor below 2^W (prefix `W` always
qualifies), and the fuel-exhausted value `W + 1` is returned only in
that unreachable situation. -/
def scanPlen (W s stop : Nat) : Nat → Nat → Nat
  | 0, i => i
  | f + 1, i =>
    if network_zeros W s i = s ∧ network_ones W s i ≤ stop then i
    else scanPlen W s stop f (i + 1)

def findPlen (W s stop : Nat) : Nat := scanPlen W s stop (W + 1) 0

/-- The body of `add`, with explicit fuel: one unit of fuel per
iteration of the `while (start < stop)` loop.  The cursor advances by
at least one per iteration, so `stop - start` units suffice (see
`addLoop_fuel_irrel`).  Emitted callback invocations are returned as a
list of `(address, prefix length)` pairs. -/
def addLoop (W : Nat) : Nat → Nat → Nat → List (Nat × Nat)
  | 0, _, _ => []
  | f + 1, start, stop =>
    if start < stop then
      (start, findPlen W start stop) ::
        (if network_ones W start (findPlen W start stop) = network_ones W start 0 then []
         else addLoop W f (nextAddr W (network_ones W start (findPlen W start stop))) stop)
    else []

/-- `add(start, stop, callback)` of BgpCompare.cpp. -/
def add (W start stop : Nat) : List (Nat × Nat) := addLoop W (stop - start) start stop

/-! ### The sweep (`traverse`, BgpCompare.cpp) -/

/-- Count delta a marker applies to the A track. -/
def bumpA : MType → Int
  | .aOpen => 1
  | .aClose => -1
  | _ => 0

/-- Count delta a marker applies to the B track. -/
def bumpB : MType → Int
  | .bOpen => 1
  | .bClose => -1
  | _ => 0

/-- `bool open = iter->type == ipm_a_open || iter->type == ipm_b_open`. -/
def isOpenM (t : MType) : Bool := t == .aOpen || t == .bOpen

/-- The `batch_data` record of `traverse`; the output adapter is
embedded as the list of `IPNode`s passed to it, in call order. -/
structure Track where
  count : Int
  inside : Bool
  start : Nat
  out : List (Nat × Nat)
deriving DecidableEq, Repr

/-- The local lambda `track` of `traverse`: evaluate the kernel on this
track's count (first) against the other track's count, toggling the
emission state and flushing through `add` on a true-to-false edge. -/
def trackStep (W : Nat) (k : Kern) (op : Bool) (ip : Nat)
    (self : Track) (otherCount : Int) : Track :=
  if kernEval k self.count otherCount then
    if self.inside then self
    else { self with inside := true, start := if op then ip else nextAddr W ip }
  else
    if self.inside then
      { self with
        inside := false
        out := self.out ++ add W self.start (if op then prevAddr W ip else ip) }
    else self

/-- The skip test `iter + 1 != stop && (iter + 1)->ip == iter->ip`:
true when a following marker exists and shares this marker's address. -/
def sameIpNext (m : Marker) : List Marker → Bool
  | [] => false
  | n :: _ => n.ip == m.ip

/-- The marker walk of `traverse`: per marker, apply both count deltas;
if the next marker has the same address, continue (duplicate block
boundaries are counted but not evaluated); otherwise run the A track
and, when `callback_b` is not the empty adapter (`useB`), the B track
with the counts swapped. -/
def traverseLoop (W : Nat) (k : Kern) (useB : Bool) :
    List Marker → Track → Track → Track × Track
  | [], A, B => (A, B)
  | m :: rest, A, B =>
    if sameIpNext m rest then
      traverseLoop W k useB rest
        { A with count := A.count + bumpA m.type }
        { B with count := B.count + bumpB m.type }
    else
      traverseLoop W k useB rest
        (trackStep W k (isOpenM m.type) m.ip
          { A with count := A.count + bumpA m.type } (B.count + bumpB m.type))
        (if useB then
          trackStep W k (isOpenM m.type) m.ip
            { B with count := B.count + bumpB m.type } (A.count + bumpA m.type)
         else { B with count := B.count + bumpB m.type })

/-- Initial `batch_data`: zero count, not inside, default-constructed
start address. -/
def track0 : Track := ⟨0, false, 0, []⟩

def traverse (W : Nat) (k : Kern) (useB : Bool) (ms : List Marker) : Track × Track :=
  traverseLoop W k useB ms track0 track0

/-! ### The pipeline (`process`, BgpCompare.cpp), file frontend elided

`InsertAdapter` floors/ceilings every input block into an open/close
marker pair; `process` reads set A then set B, sorts all markers and
traverses once.  `std::sort` orders by address only (`IPMarker::operator<`)
and leaves the relative order of equal addresses unspecified; a stable
insertion sort is used here, one of the permitted outcomes. -/

def insertM (m : Marker) : List Marker → List Marker
  | [] => [m]
  | x :: xs => if m.ip ≤ x.ip then m :: x :: xs else x :: insertM m xs

def sortMarkers : List Marker → List Marker
  | [] => []
  | m :: ms => insertM m (sortMarkers ms)

/-- `InsertAdapter`: each `(ip, prefix length)` node yields an open
marker at the block floor and a close marker at the block ceiling. -/
def blockMarkers (W : Nat) (openT closeT : MType) (nodes : List (Nat × Nat)) :
    List Marker :=
  (nodes.map fun n =>
    [Marker.mk (network_zeros W n.1 n.2) openT,
     Marker.mk (network_ones W n.1 n.2) closeT]).flatten

/-- `process` (without the regex/file reading): returns the `IPNode`s
delivered to `callback_a` and `callback_b`.  For the asymmetric
difference kernel the first component is the `DiffAdapter("+")` stream
and the second the `DiffAdapter("-")` stream; for the symmetric kernels
only the first (`SimpleAdapter`) stream exists. -/
def processBlocks (W : Nat) (k : Kern) (asN bsN : List (Nat × Nat)) :
    List (Nat × Nat) × List (Nat × Nat) :=
  let ms := sortMarkers
    (blockMarkers W .aOpen .aClose asN ++ blockMarkers W .bOpen .bClose bsN)
  if kernSym k then ((traverse W k false ms).1.out, [])
  else ((traverse W k true ms).1.out, (traverse W k true ms).2.out)

/-! ### IPv4 textual form (IPAddress.h)

`IPv4::to_string` prints the four octets in decimal separated by dots;
`IPv4::parse` walks the string once, accumulating decimal octets,
rejecting non-digit characters, octet values of 256 or more, a leading
or trailing dot, a double dot, and any octet count other than four.
Strings are modelled as `List Char`; a parse failure (C++ throw of the
`Invalid IPv4 format` runtime error) is `none`. -/

/-- Decimal notation of an unsigned value, as `std::dec` renders it:
most significant digit first, a lone `0` for zero. -/
def decRepr (n : Nat) : List Char :=
  if n = 0 then ['0']
  else ((Nat.digits 10 n).map Nat.digitChar).reverse

def to_string4 (v : Nat) : List Char :=
  decRepr ((v >>> 24) &&& 0xff) ++ '.' ::
    (decRepr ((v >>> 16) &&& 0xff) ++ '.' ::
      (decRepr ((v >>> 8) &&& 0xff) ++ '.' :: decRepr ((v >>> 0) &&& 0xff)))

/-- The look-ahead of `IPv4::parse` at a dot: it throws when the dot is
the last character or the next character is another dot. -/
def dotBad : List Char → Bool
  | [] => true
  | c2 :: _ => c2 = '.'

/-- The character loop of `IPv4::parse`, with the accumulated value,
current octet and dot count; the trailing checks (`count != 3 ||
octet >= 256`) and the final `value = (value << 8) | octet` are the
empty-list case.  Both 32-bit assignments wrap as `uint32_t`. -/
def parse4Loop : List Char → Nat → Nat → Nat → Option Nat
  | [], value, octet, count =>
    if count = 3 ∧ octet < 256 then some (((value <<< 8) ||| octet) % 2 ^ 32)
    else none
  | c :: rest, value, octet, count =>
    if c ≤ '9' ∧ '0' ≤ c then
      parse4Loop rest value (octet * 10 + (c.toNat - '0'.toNat)) count
    else if c = '.' ∧ octet < 256 then
      if dotBad rest then none
      else parse4Loop rest (((value <<< 8) ||| octet) % 2 ^ 32) 0 (count + 1)
    else none

/-- `IPv4::parse`: an initial dot throws immediately; dereferencing the
begin iterator of an empty range is undefined, and the loop would in
any case reject `count = 0`, so the empty string maps to `none`. -/
def parse4 (s : List Char) : Option Nat :=
  match s with
  | [] => none
  | c :: _ => if c = '.' then none else parse4Loop s 0 0 0

/-! ### Round trip of the IPv4 textual form -/

theorem digitChar_toNat {d : Nat} (h : d < 10) : (Nat.digitChar d).toNat = 48 + d := by
  revert h
  revert d
  decide

theorem digitChar_isDigit {d : Nat} (h : d < 10) :
    Nat.digitChar d ≤ '9' ∧ '0' ≤ Nat.digitChar d := by
  revert h
  revert d
  decide

theorem decRepr_digits {n : Nat} : ∀ c ∈ decRepr n, c ≤ '9' ∧ '0' ≤ c := by
  intro c hc
  unfold decRepr at hc
  by_cases h0 : n = 0
  · rw [if_pos h0, List.mem_singleton] at hc
    subst hc
    decide
  · rw [if_neg h0, List.mem_reverse] at hc
    obtain ⟨d, hd, rfl⟩ := List.mem_map.mp hc
    exact digitChar_isDigit (Nat.digits_lt_base (by norm_num) hd)

theorem decRepr_ne_nil (n : Nat) : decRepr n ≠ [] := by
  unfold decRepr
  by_cases h0 : n = 0
  · rw [if_pos h0]
    simp
  · rw [if_neg h0]
    simp [Nat.digits_ne_nil_iff_ne_zero.mpr h0]

theorem decRepr_head_ne_dot (n : Nat) : ∀ c ∈ (decRepr n).head?, ¬ c = '.' := by
  intro c hc heq
  subst heq
  have hmem : '.' ∈ decRepr n := by
    cases h : decRepr n with
    | nil =>
      rw [h] at hc
      exact absurd hc (by simp)
    | cons a l =>
      rw [h] at hc
      simp only [List.head?_cons, Option.mem_some_iff] at hc
      rw [hc]
      exact List.mem_cons_self _ _
  have hdig := decRepr_digits _ hmem
  revert hdig
  decide

theorem parse4Loop_digits :
    ∀ (ds rest : List Char) (value octet count : Nat),
      (∀ c ∈ ds, c ≤ '9' ∧ '0' ≤ c) →
      parse4Loop (ds ++ rest) value octet count =
        parse4Loop rest value
          (ds.foldl (fun a c => a * 10 + (c.toNat - '0'.toNat)) octet) count := by
  intro ds
  induction ds with
  | nil =>
    intro rest value octet count _
    rfl
  | cons c ds ih =>
    intro rest value octet count hds
    have hc := hds c (List.mem_cons_self c ds)
    rw [List.cons_append]
    show parse4Loop (c :: (ds ++ rest)) value octet count = _
    rw [show parse4Loop (c :: (ds ++ rest)) value octet count
        = parse4Loop (ds ++ rest) value (octet * 10 + (c.toNat - '0'.toNat)) count from by
      simp only [parse4Loop]
      rw [if_pos hc]]
    rw [ih rest value _ count (fun x hx => hds x (List.mem_cons_of_mem c hx))]
    rfl

theorem foldl_digitChars (L : List Nat) (hL : ∀ d ∈ L, d < 10) :
    ∀ acc : Nat,
      ((L.map Nat.digitChar).reverse).foldl
          (fun a c => a * 10 + (c.toNat - '0'.toNat)) acc
        = acc * 10 ^ L.length + Nat.ofDigits 10 L := by
  induction L with
  | nil =>
    intro acc
    simp [Nat.ofDigits_nil]
  | cons d L ih =>
    intro acc
    have hd : d < 10 := hL d (List.mem_cons_self d L)
    rw [List.map_cons, List.reverse_cons, List.foldl_append,
      ih (fun x hx => hL x (List.mem_cons_of_mem d hx)) acc]
    simp only [List.foldl_cons, List.foldl_nil, Nat.ofDigits_cons, List.length_cons]
    rw [digitChar_toNat hd]
    have h48 : '0'.toNat = 48 := by decide
    rw [h48]
    ring_nf
    omega

theorem foldl_decRepr (n : Nat) (acc : Nat) :
    (decRepr n).foldl (fun a c => a * 10 + (c.toNat - '0'.toNat)) acc
      = acc * 10 ^ (decRepr n).length + n := by
  unfold decRepr
  by_cases h0 : n = 0
  · subst h0
    simp
  · rw [if_neg h0]
    have := foldl_digitChars (Nat.digits 10 n)
      (fun d hd => Nat.digits_lt_base (by norm_num) hd) acc
    rw [this, Nat.ofDigits_digits]
    simp

theorem dotBad_decRepr_append (n : Nat) (x : List Char) :
    dotBad (decRepr n ++ x) = false := by
  cases h : decRepr n with
  | nil => exact absurd h (decRepr_ne_nil n)
  | cons a l =>
    have ha : ¬ a = '.' := decRepr_head_ne_dot n a (by rw [h]; rfl)
    simp [dotBad, ha]

theorem dotBad_decRepr (n : Nat) : dotBad (decRepr n) = false := by
  have := dotBad_decRepr_append n []
  rwa [List.append_nil] at this

theorem parse4Loop_dot (rest : List Char) (h : dotBad rest = false)
    (value octet count : Nat) (hoct : octet < 256) :
    parse4Loop ('.' :: rest) value octet count
      = parse4Loop rest (((value <<< 8) ||| octet) % 2 ^ 32) 0 (count + 1) := by
  conv_lhs => rw [parse4Loop]
  rw [if_neg (by decide : ¬ ('.' ≤ '9' ∧ '0' ≤ '.')), if_pos ⟨rfl, hoct⟩, h]
  rw [if_neg (by simp)]

theorem parse4Loop_octet (n : Nat) (rest : List Char) (value count : Nat) :
    parse4Loop (decRepr n ++ rest) value 0 count
      = parse4Loop rest value n count := by
  rw [parse4Loop_digits (decRepr n) rest value 0 count decRepr_digits,
    foldl_decRepr]
  simp

theorem parse4_roundtrip (v : Nat) (hv : v < 2 ^ 32) :
    parse4 (to_string4 v) = some v := by
  have hmod8 : ∀ w : Nat, w &&& 0xff = w % 256 := by
    intro w
    rw [show (0xff : Nat) = 2 ^ 8 - 1 by norm_num, Nat.and_pow_two_sub_one_eq_mod]
  have hb3 : (v >>> 24) &&& 0xff = v / 16777216 % 256 := by
    rw [hmod8, Nat.shiftRight_eq_div_pow]
  have hb2 : (v >>> 16) &&& 0xff = v / 65536 % 256 := by
    rw [hmod8, Nat.shiftRight_eq_div_pow]
  have hb1 : (v >>> 8) &&& 0xff = v / 256 % 256 := by
    rw [hmod8, Nat.shiftRight_eq_div_pow]
  have hb0 : (v >>> 0) &&& 0xff = v % 256 := by
    rw [hmod8, Nat.shiftRight_eq_div_pow]
    simp
  have h3lt : v / 16777216 % 256 < 256 := Nat.mod_lt _ (by norm_num)
  have h2lt : v / 65536 % 256 < 256 := Nat.mod_lt _ (by norm_num)
  have h1lt : v / 256 % 256 < 256 := Nat.mod_lt _ (by norm_num)
  have h0lt : v % 256 < 256 := Nat.mod_lt _ (by norm_num)
  unfold to_string4
  rw [hb3, hb2, hb1, hb0]
  -- the leading character is a digit, not a dot
  cases hhead : decRepr (v / 16777216 % 256) with
  | nil => exact absurd hhead (decRepr_ne_nil _)
  | cons c cs =>
    have hc : ¬ c = '.' := decRepr_head_ne_dot _ c (by rw [hhead]; rfl)
    rw [List.cons_append]
    simp only [parse4]
    rw [if_neg hc, ← List.cons_append, ← hhead]
    rw [parse4Loop_octet]
    rw [parse4Loop_dot _ (dotBad_decRepr_append _ _) _ _ _ h3lt]
    rw [parse4Loop_octet]
    rw [parse4Loop_dot _ (dotBad_decRepr_append _ _) _ _ _ h2lt]
    rw [parse4Loop_octet]
    rw [parse4Loop_dot _ (dotBad_decRepr _) _ _ _ h1lt]
    rw [show decRepr (v % 256) = decRepr (v % 256) ++ [] from (List.append_nil _).symm,
      parse4Loop_octet]
    show (if (3 = 3 ∧ v % 256 < 256) then
      some ((_ <<< 8 ||| v % 256) % 2 ^ 32) else none) = some v
    rw [if_pos ⟨rfl, h0lt⟩]
    congr 1
    -- arithmetic: recomposition of the four octets
    have hsh : ∀ a b : Nat, b < 256 → (a <<< 8 ||| b) = a * 256 + b := by
      intro a b hb
      have h28 : (2 : Nat) ^ 8 = 256 := by norm_num
      have hb2 : b < 2 ^ 8 := by omega
      rw [Nat.shiftLeft_eq, Nat.mul_comm a (2 ^ 8), ← Nat.mul_add_lt_is_or hb2 a,
        h28]
    have e1 : ((0 <<< 8 ||| v / 16777216 % 256) % 2 ^ 32) = v / 16777216 % 256 := by
      rw [hsh 0 _ h3lt]
      simp only [Nat.zero_mul, Nat.zero_add]
      exact Nat.mod_eq_of_lt (by omega)
    rw [e1]
    have e2 : (((v / 16777216 % 256) <<< 8 ||| v / 65536 % 256) % 2 ^ 32)
        = (v / 16777216 % 256) * 256 + v / 65536 % 256 := by
      rw [hsh _ _ h2lt]
      exact Nat.mod_eq_of_lt (by omega)
    rw [e2]
    have e3 : (((v / 16777216 % 256) * 256 + v / 65536 % 256) <<< 8
          ||| v / 256 % 256) % 2 ^ 32
        = ((v / 16777216 % 256) * 256 + v / 65536 % 256) * 256 + v / 256 % 256 := by
      rw [hsh _ _ h1lt]
      exact Nat.mod_eq_of_lt (by omega)
    rw [e3, hsh _ _ h0lt]
    rw [Nat.mod_eq_of_lt (by omega)]
    omega

/-! ### IPv6 textual form (IPAddress.h)

`IPv6::to_string` segments the value into eight 16-bit groups and
renders them via `collapse`, which finds the run of zero groups to
compress to `::` (first-longest, runs of length one not compressed) and
hex-formats the remaining groups.  `IPv6::parse` splits on `:`,
switching from the first segment vector to the second at the single
allowed `::`, with an embedded dotted-decimal tail handed to the IPv4
parser. -/

/-- `segmentize`: eight 16-bit groups, network half first. -/
def segmentize (x : V6) : List Nat :=
  [(x.network >>> 48) &&& 0xffff, (x.network >>> 32) &&& 0xffff,
   (x.network >>> 16) &&& 0xffff, (x.network >>> 0) &&& 0xffff,
   (x.host >>> 48) &&& 0xffff, (x.host >>> 32) &&& 0xffff,
   (x.host >>> 16) &&& 0xffff, (x.host >>> 0) &&& 0xffff]

/-- Hex notation of a group as `std::hex` prints it: lower case, no
leading zeros, a lone `0` for zero. -/
def hexRepr (n : Nat) : List Char :=
  if n = 0 then ['0']
  else ((Nat.digits 16 n).map Nat.digitChar).reverse

/-- The zero-run scan of `collapse`: `collapse` (here an `Option Nat`)
is the start of the zero run currently being read, `(cs, ce)` the best
run so far (both `n`, i.e. `end`, when none), replaced only by strictly
longer runs so the first longest run wins.  The empty-list case is the
after-loop handling of a run reaching the end. -/
def scanZeros : List Nat → Nat → Option Nat → Nat → Nat → Nat × Nat
  | [], n, collapse, cs, ce =>
    match collapse with
    | some c => if n - c > ce - cs then (c, n) else (cs, ce)
    | none => (cs, ce)
  | g :: rest, i, collapse, cs, ce =>
    if g = 0 then
      scanZeros rest (i + 1)
        (match collapse with | none => some i | some c => some c) cs ce
    else
      match collapse with
      | some c =>
        if i - c > ce - cs then scanZeros rest (i + 1) none c i
        else scanZeros rest (i + 1) none cs ce
      | none => scanZeros rest (i + 1) none cs ce

/-- The chosen run: the scan result with the `collapse_end -
collapse_start == 1` rule applied (a single zero group is not
compressed; only `collapse_start` is reset to `end`). -/
def collapseRun (segs : List Nat) : Nat × Nat :=
  if (scanZeros segs 0 none segs.length segs.length).2
      - (scanZeros segs 0 none segs.length segs.length).1 = 1 then
    (segs.length, (scanZeros segs 0 none segs.length segs.length).2)
  else scanZeros segs 0 none segs.length segs.length

/-- The output loop of `collapse`: `::` at the run start, groups inside
the run skipped, `:` after a group unless it is the last or the run
starts next. -/
def printGroups (n cs ce : Nat) : List Nat → Nat → List Char
  | [], _ => []
  | g :: rest, i =>
    (if i = cs then [':', ':'] else [])
      ++ (if cs ≤ i ∧ i < ce then []
          else hexRepr g ++ (if i + 1 ≠ n ∧ i + 1 ≠ cs then [':'] else []))
      ++ printGroups n cs ce rest (i + 1)

/-- `IPv6::collapse` over a full segment vector. -/
def collapse (segs : List Nat) : List Char :=
  printGroups segs.length (collapseRun segs).1 (collapseRun segs).2 segs 0

/-- `IPv6::to_string`. -/
def to_string6 (x : V6) : List Char := collapse (segmentize x)

/-- Numeric value of one hex digit (either case), as stream extraction
with `std::hex` reads it. -/
def hexVal (c : Char) : Nat :=
  if '0' ≤ c ∧ c ≤ '9' then c.toNat - '0'.toNat
  else if 'a' ≤ c ∧ c ≤ 'f' then c.toNat - 'a'.toNat + 10
  else if 'A' ≤ c ∧ c ≤ 'F' then c.toNat - 'A'.toNat + 10
  else 0

/-- `IPv6::parse_segment`: `stringstream >> hex` into a `uint16_t`; on
overflow C++11 extraction stores the maximum value (the failbit the
stream would set is ignored by the caller).  Reachable only for the
unchecked final segment; all other segments have at most 4 digits. -/
def parse_segment (cs : List Char) : Nat :=
  if cs.foldl (fun a c => a * 16 + hexVal c) 0 ≤ 0xffff then
    cs.foldl (fun a c => a * 16 + hexVal c) 0
  else 0xffff

/-- Outcome of the character loop of `IPv6::parse`. -/
inductive P6Scan where
  | thrown
  | ended (first second : List Nat) (usingSec : Bool) (seg : List Char)
  | embedded (first second : List Nat) (usingSec : Bool) (v4str : List Char)
deriving DecidableEq, Repr

/-- The character loop of `IPv6::parse`: hex digits grow the current
segment; `:` closes a segment (at most 4 digits, an empty segment being
the single allowed `::` switch to the second vector); `.` hands the
rest of the address (from the current segment start) to the IPv4
parser; anything else throws. -/
def p6loop : List Char → List Char → List Nat → List Nat → Bool → P6Scan
  | [], seg, f, s, u => .ended f s u seg
  | c :: rest, seg, f, s, u =>
    if ('a' ≤ c ∧ c ≤ 'f') ∨ ('A' ≤ c ∧ c ≤ 'F') ∨ ('0' ≤ c ∧ c ≤ '9') then
      p6loop rest (seg ++ [c]) f s u
    else if c = ':' then
      if seg.length > 4 then .thrown
      else if seg.length = 0 then
        (if u then .thrown else p6loop rest [] f s true)
      else
        (if u then p6loop rest [] f (s ++ [parse_segment seg]) u
         else p6loop rest [] (f ++ [parse_segment seg]) s u)
    else if c = '.' then .embedded f s u (seg ++ c :: rest)
    else .thrown

/-- The first-vector insertion loop: segment `i` ORed into the network
half at bits `(3 - i) * 16` for `i < 4`, into the host half at
`(7 - i) * 16` otherwise. -/
def asmFirstGo : List Nat → Nat → Nat × Nat → Nat × Nat
  | [], _, nh => nh
  | v :: rest, i, nh =>
    asmFirstGo rest (i + 1)
      (if i < 4 then (nh.1 ||| (v <<< ((3 - i) * 16)), nh.2)
       else (nh.1, nh.2 ||| (v <<< ((7 - i) * 16))))

/-- The second-vector insertion loop, iterating backwards (`i` is the
distance from the vector's back, i.e. the index into its reverse). -/
def asmSecondRev : List Nat → Nat → Nat × Nat → Nat × Nat
  | [], _, nh => nh
  | v :: rest, i, nh =>
    asmSecondRev rest (i + 1)
      (if i < 4 then (nh.1, nh.2 ||| (v <<< (i * 16)))
       else (nh.1 ||| (v <<< ((i - 4) * 16)), nh.2))

def assemble (f s : List Nat) : Nat × Nat :=
  asmSecondRev s.reverse 0 (asmFirstGo f 0 (0, 0))

/-- The after-loop half of `IPv6::parse`, shared by the plain and the
embedded-IPv4 endings: the stray-trailing-`:` check, the final segment
push, the segment-count checks, and the assembly into the two halves.
`str` is the whole input (for the `*(end-1)` test). -/
def parse6core (str : List Char) (body : List Char) (u0 : Bool) :
    Option (Nat × Nat) :=
  match p6loop body [] [] [] u0 with
  | .thrown => none
  | .ended f s u seg =>
    if str.getLast? = some ':' ∧ ¬ (u ∧ s = []) then none
    else
      if ¬ str.getLast? = some ':' then
        (if u then
          (if f.length + (s ++ [parse_segment seg]).length ≥ 8 then none
           else some (assemble f (s ++ [parse_segment seg])))
         else
          (if (f ++ [parse_segment seg]).length = 8 then
            some (assemble (f ++ [parse_segment seg]) s)
           else none))
      else
        (if u then
          (if f.length + s.length ≥ 8 then none else some (assemble f s))
         else (if f.length = 8 then some (assemble f s) else none))
  | .embedded f s u v4str =>
    if str.getLast? = some ':' ∧ ¬ (u ∧ s = []) then none
    else
      match parse4 v4str with
      | none => none
      | some v =>
        (if u then
          (if f.length + (s ++ [v >>> 16, v &&& 0xffff]).length ≥ 8 then none
           else some (assemble f (s ++ [v >>> 16, v &&& 0xffff])))
         else
          (if (f ++ [v >>> 16, v &&& 0xffff]).length = 8 then
            some (assemble (f ++ [v >>> 16, v &&& 0xffff]) s)
           else none))

/-- `IPv6::parse`: a leading `:` must start a `::`; an empty input
dereferences past-the-end iterators, modelled as failure. -/
def parse6 (str : List Char) : Option (Nat × Nat) :=
  match str with
  | [] => none
  | c :: rest =>
    if c = ':' then
      match rest with
      | ':' :: r2 => parse6core str r2 true
      | _ => none
    else parse6core str str false

/-! ### Properties of the hex group notation -/

/-- The hex-digit test of the `IPv6::parse` character loop. -/
def isHexDigit (c : Char) : Prop :=
  ('a' ≤ c ∧ c ≤ 'f') ∨ ('A' ≤ c ∧ c ≤ 'F') ∨ ('0' ≤ c ∧ c ≤ '9')

instance (c : Char) : Decidable (isHexDigit c) := by
  unfold isHexDigit
  infer_instance

theorem digitChar_isHexDigit {d : Nat} (h : d < 16) : isHexDigit (Nat.digitChar d) := by
  revert h
  revert d
  decide

theorem hexVal_digitChar {d : Nat} (h : d < 16) : hexVal (Nat.digitChar d) = d := by
  revert h
  revert d
  decide

theorem hexRepr_ne_nil (n : Nat) : hexRepr n ≠ [] := by
  unfold hexRepr
  by_cases h0 : n = 0
  · rw [if_pos h0]
    simp
  · rw [if_neg h0]
    simp [Nat.digits_ne_nil_iff_ne_zero.mpr h0]

theorem hexRepr_isHexDigit {n : Nat} : ∀ c ∈ hexRepr n, isHexDigit c := by
  intro c hc
  unfold hexRepr at hc
  by_cases h0 : n = 0
  · rw [if_pos h0, List.mem_singleton] at hc
    subst hc
    decide
  · rw [if_neg h0, List.mem_reverse] at hc
    obtain ⟨d, hd, rfl⟩ := List.mem_map.mp hc
    exact digitChar_isHexDigit (Nat.digits_lt_base (by norm_num) hd)

theorem isHexDigit_ne_colon {c : Char} (h : isHexDigit c) : ¬ c = ':' := by
  revert h
  unfold isHexDigit
  intro h heq
  subst heq
  revert h
  decide

theorem hexRepr_len_le {n : Nat} (hn : n < 2 ^ 16) : (hexRepr n).length ≤ 4 := by
  unfold hexRepr
  by_cases h0 : n = 0
  · rw [if_pos h0]
    simp
  · rw [if_neg h0]
    simp only [List.length_reverse, List.length_map]
    by_contra hlen
    have h5 : 5 ≤ (Nat.digits 16 n).length := by omega
    have hle := Nat.base_pow_length_digits_le 16 n (by norm_num) h0
    have : (16 : Nat) ^ 5 ≤ 16 ^ (Nat.digits 16 n).length :=
      Nat.pow_le_pow_right (by norm_num) h5
    have h16 : (16 : Nat) ^ 5 = 16 * 2 ^ 16 := by norm_num
    omega

theorem foldl_hexChars (L : List Nat) (hL : ∀ d ∈ L, d < 16) :
    ∀ acc : Nat,
      ((L.map Nat.digitChar).reverse).foldl (fun a c => a * 16 + hexVal c) acc
        = acc * 16 ^ L.length + Nat.ofDigits 16 L := by
  induction L with
  | nil =>
    intro acc
    simp [Nat.ofDigits_nil]
  | cons d L ih =>
    intro acc
    have hd : d < 16 := hL d (List.mem_cons_self d L)
    rw [List.map_cons, List.reverse_cons, List.foldl_append,
      ih (fun x hx => hL x (List.mem_cons_of_mem d hx)) acc]
    simp only [List.foldl_cons, List.foldl_nil, Nat.ofDigits_cons, List.length_cons]
    rw [hexVal_digitChar hd]
    ring_nf

theorem hexFold_hexRepr (n : Nat) :
    (hexRepr n).foldl (fun a c => a * 16 + hexVal c) 0 = n := by
  unfold hexRepr
  by_cases h0 : n = 0
  · rw [if_pos h0]
    subst h0
    decide
  · rw [if_neg h0,
      foldl_hexChars (Nat.digits 16 n)
        (fun d hd => Nat.digits_lt_base (by norm_num) hd) 0,
      Nat.ofDigits_digits]
    simp

theorem parse_segment_hexRepr {n : Nat} (hn : n < 2 ^ 16) :
    parse_segment (hexRepr n) = n := by
  unfold parse_segment
  rw [hexFold_hexRepr]
  rw [if_pos (by omega)]

/-- Groups joined by single colons, as the print loop emits them in a
region without the compressed run. -/
def joinColon : List (List Char) → List Char
  | [] => []
  | [g] => g
  | g :: gs => g ++ ':' :: joinColon gs

/-! ### Characterization of the zero-run scan -/

/-- Group `j` exists and is zero (out-of-range indices count as
nonzero, which conveniently makes runs end at the vector's end). -/
def segZero (segs : List Nat) (j : Nat) : Prop := segs.getD j 1 = 0

instance (segs : List Nat) (j : Nat) : Decidable (segZero segs j) := by
  unfold segZero
  infer_instance

/-- `[a, b)` consists of zero groups. -/
def IsZeroRun (segs : List Nat) (a b : Nat) : Prop :=
  a ≤ b ∧ b ≤ segs.length ∧ ∀ j, a ≤ j → j < b → segZero segs j

/-- A zero run that cannot be extended on either side. -/
def MaxRun (segs : List Nat) (a b : Nat) : Prop :=
  IsZeroRun segs a b ∧ (a = 0 ∨ ¬ segZero segs (a - 1)) ∧ ¬ segZero segs b

theorem drop_cons_facts {segs : List Nat} {i v : Nat} {rest' : List Nat}
    (h : segs.drop i = v :: rest') :
    segs.getD i 1 = v ∧ segs.drop (i + 1) = rest' ∧ i < segs.length := by
  have h0 : segs[i]? = some v := by
    have : (segs.drop i)[0]? = some v := by
      rw [h]
      simp
    rwa [List.getElem?_drop, Nat.add_zero] at this
  refine ⟨?_, ?_, ?_⟩
  · rw [List.getD_eq_getElem?_getD, h0]
    rfl
  · have : segs.drop (i + 1) = (segs.drop i).drop 1 := by
      rw [List.drop_drop, Nat.add_comm]
    rw [this, h, List.drop_one, List.tail_cons]
  · exact (List.getElem?_eq_some_iff.mp h0).choose

/-- Two maximal-on-the-left zero runs ending at the same point start at
the same point. -/
theorem maxrun_start_unique {segs : List Nat} {a b c : Nat}
    (hm : MaxRun segs a b)
    (hzc : ∀ j, c ≤ j → j < b → segZero segs j)
    (hlm : c = 0 ∨ ¬ segZero segs (c - 1)) (hcb : c ≤ b) : a = c := by
  obtain ⟨⟨hab, _, hz⟩, hA, _⟩ := hm
  rcases Nat.lt_trichotomy a c with hlt | heq | hgt
  · exfalso
    have hc1 : ¬ segZero segs (c - 1) := by
      rcases hlm with h0 | h1
      · omega
      · exact h1
    exact hc1 (hz (c - 1) (by omega) (by omega))
  · exact heq
  · exfalso
    have ha1 : ¬ segZero segs (a - 1) := by
      rcases hA with h0 | h1
      · omega
      · exact h1
    exact ha1 (hzc (a - 1) (by omega) (by omega))

theorem segZero_ge {segs : List Nat} {j : Nat} (h : segs.length ≤ j) :
    ¬ segZero segs j := by
  unfold segZero
  rw [List.getD_eq_default _ _ h]
  simp

/-- The best-run disjunction maintained by the scan: either nothing is
recorded yet (both marks at `end`) and every maximal run in scope is
empty, or the recorded run is the first longest maximal run in scope.
`lim` bounds the runs in scope (`b < lim`). -/
def BestRun (segs : List Nat) (cs ce lim : Nat) : Prop :=
  (cs = segs.length ∧ ce = segs.length ∧
    (∀ a b, MaxRun segs a b → b < lim → a = b)) ∨
  (MaxRun segs cs ce ∧ cs < ce ∧ ce < lim ∧
    (∀ a b, MaxRun segs a b → b < lim → b - a ≤ ce - cs) ∧
    (∀ a b, MaxRun segs a b → b < lim → b - a = ce - cs → cs ≤ a))

/-- Specification of the whole scan: the result marks either record no
run (first component at `end`) with every maximal zero run empty, or
the first longest maximal zero run of the vector. -/
theorem scanZeros_spec (segs : List Nat) :
    ∀ (rest : List Nat) (i : Nat) (col : Option Nat) (cs ce : Nat),
      rest = segs.drop i → i ≤ segs.length →
      (col = none → (i = 0 ∨ ¬ segZero segs (i - 1))) →
      (∀ c, col = some c → c ≤ i ∧ (c = 0 ∨ ¬ segZero segs (c - 1)) ∧
        ∀ j, c ≤ j → j < i → segZero segs j) →
      BestRun segs cs ce i →
      BestRun segs (scanZeros rest i col cs ce).1
        (scanZeros rest i col cs ce).2 (segs.length + 1) := by
  intro rest
  induction rest with
  | nil =>
    intro i col cs ce hrest hi hnone hsome hbest
    have hin : i = segs.length := by
      have hlen := congrArg List.length hrest
      simp only [List.length_drop, List.length_nil] at hlen
      omega
    subst hin
    cases col with
    | none =>
      simp only [scanZeros]
      rcases hbest with ⟨h1, h2, h3⟩ | ⟨hm, hlt, hce, hmax, htie⟩
      · left
        refine ⟨h1, h2, ?_⟩
        intro a b hm' hb
        have hble : b ≤ segs.length := hm'.1.2.1
        rcases Nat.lt_or_ge b segs.length with hb' | hb'
        · exact h3 a b hm' hb'
        · have hbeq : b = segs.length := by omega
          by_contra hne
          have hab : a < b := Nat.lt_of_le_of_ne hm'.1.1 hne
          have hz := hm'.1.2.2 (b - 1) (by omega) (by omega)
          rcases hnone rfl with h0 | hP
          · omega
          · rw [hbeq] at hz
            exact hP hz
      · right
        refine ⟨hm, hlt, by omega, ?_, ?_⟩
        · intro a b hm' hb
          have hble : b ≤ segs.length := hm'.1.2.1
          rcases Nat.lt_or_ge b segs.length with hb' | hb'
          · exact hmax a b hm' hb'
          · have hbeq : b = segs.length := by omega
            have hab : a = b := by
              by_contra hne
              have hablt : a < b := Nat.lt_of_le_of_ne hm'.1.1 hne
              have hz := hm'.1.2.2 (b - 1) (by omega) (by omega)
              rcases hnone rfl with h0 | hP
              · omega
              · rw [hbeq] at hz
                exact hP hz
            omega
        · intro a b hm' hb hlen
          have hble : b ≤ segs.length := hm'.1.2.1
          rcases Nat.lt_or_ge b segs.length with hb' | hb'
          · exact htie a b hm' hb' hlen
          · have hbeq : b = segs.length := by omega
            have hab : a = b := by
              by_contra hne
              have hablt : a < b := Nat.lt_of_le_of_ne hm'.1.1 hne
              have hz := hm'.1.2.2 (b - 1) (by omega) (by omega)
              rcases hnone rfl with h0 | hP
              · omega
              · rw [hbeq] at hz
                exact hP hz
            omega
    | some c =>
      obtain ⟨hci, hclm, hcz⟩ := hsome c rfl
      simp only [scanZeros]
      by_cases hcmp : segs.length - c > ce - cs
      · rw [if_pos hcmp]
        right
        have hcn : c < segs.length := by omega
        have hmr : MaxRun segs c segs.length :=
          ⟨⟨by omega, le_refl _, hcz⟩, hclm, segZero_ge (le_refl _)⟩
        refine ⟨hmr, by omega, by omega, ?_, ?_⟩
        · intro a b hm' hb
          have hble : b ≤ segs.length := hm'.1.2.1
          rcases Nat.lt_or_ge b segs.length with hb' | hb'
          · rcases hbest with ⟨_, _, h3⟩ | ⟨_, _, _, hmax, _⟩
            · have := h3 a b hm' hb'
              omega
            · have := hmax a b hm' hb'
              omega
          · have hbeq : b = segs.length := by omega
            subst hbeq
            have := maxrun_start_unique hm' hcz hclm (by omega)
            omega
        · intro a b hm' hb hlen
          have hble : b ≤ segs.length := hm'.1.2.1
          rcases Nat.lt_or_ge b segs.length with hb' | hb'
          · exfalso
            rcases hbest with ⟨_, _, h3⟩ | ⟨_, _, _, hmax, _⟩
            · have := h3 a b hm' hb'
              omega
            · have := hmax a b hm' hb'
              omega
          · have hbeq : b = segs.length := by omega
            subst hbeq
            have := maxrun_start_unique hm' hcz hclm (by omega)
            omega
      · rw [if_neg hcmp]
        rcases hbest with ⟨h1, h2, h3⟩ | ⟨hm, hlt, hce, hmax, htie⟩
        · left
          have hceq : c = segs.length := by omega
          refine ⟨h1, h2, ?_⟩
          intro a b hm' hb
          have hble : b ≤ segs.length := hm'.1.2.1
          rcases Nat.lt_or_ge b segs.length with hb' | hb'
          · exact h3 a b hm' hb'
          · have hbeq : b = segs.length := by omega
            subst hbeq
            have := maxrun_start_unique hm' hcz hclm (by omega)
            omega
        · right
          have hcge : ce < c ∨ c = segs.length := by
            by_contra hcon
            push_neg at hcon
            obtain ⟨hle, hne⟩ := hcon
            have hcn : c < segs.length := by omega
            exact hm.2.2 (hcz ce (by omega) (by omega))
          refine ⟨hm, hlt, by omega, ?_, ?_⟩
          · intro a b hm' hb
            have hble : b ≤ segs.length := hm'.1.2.1
            rcases Nat.lt_or_ge b segs.length with hb' | hb'
            · exact hmax a b hm' hb'
            · have hbeq : b = segs.length := by omega
              subst hbeq
              have := maxrun_start_unique hm' hcz hclm (by omega)
              omega
          · intro a b hm' hb hlen
            have hble : b ≤ segs.length := hm'.1.2.1
            rcases Nat.lt_or_ge b segs.length with hb' | hb'
            · exact htie a b hm' hb' hlen
            · have hbeq : b = segs.length := by omega
              subst hbeq
              have hac := maxrun_start_unique hm' hcz hclm (by omega)
              rcases hcge with h | h
              · omega
              · omega
  | cons v rest' ih =>
    intro i col cs ce hrest hi hnone hsome hbest
    obtain ⟨hv, hdrop', hilt⟩ := drop_cons_facts hrest.symm
    have hsegi : segZero segs i ↔ v = 0 := by
      unfold segZero
      rw [hv]
    by_cases hv0 : v = 0
    · have hbest' : BestRun segs cs ce (i + 1) := by
        rcases hbest with ⟨h1, h2, h3⟩ | ⟨hm, hlt, hce, hmax, htie⟩
        · left
          refine ⟨h1, h2, ?_⟩
          intro a b hm' hb
          rcases Nat.lt_or_ge b i with hb' | hb'
          · exact h3 a b hm' hb'
          · have hbeq : b = i := by omega
            exfalso
            exact hm'.2.2 (hbeq ▸ (hsegi.mpr hv0))
        · right
          refine ⟨hm, hlt, by omega, ?_, ?_⟩
          · intro a b hm' hb
            rcases Nat.lt_or_ge b i with hb' | hb'
            · exact hmax a b hm' hb'
            · have hbeq : b = i := by omega
              exact absurd (hbeq ▸ (hsegi.mpr hv0)) hm'.2.2
          · intro a b hm' hb hlen
            rcases Nat.lt_or_ge b i with hb' | hb'
            · exact htie a b hm' hb' hlen
            · have hbeq : b = i := by omega
              exact absurd (hbeq ▸ (hsegi.mpr hv0)) hm'.2.2
      cases col with
      | none =>
        simp only [scanZeros]
        rw [if_pos hv0]
        apply ih (i + 1) (some i) cs ce hdrop'.symm (by omega)
          (by intro h; cases h) ?_ hbest'
        intro c hc
        injection hc with hc
        subst hc
        refine ⟨by omega, hnone rfl, ?_⟩
        intro j hj1 hj2
        have hji : j = i := by omega
        subst hji
        exact hsegi.mpr hv0
      | some c =>
        simp only [scanZeros]
        rw [if_pos hv0]
        obtain ⟨hci, hclm, hcz⟩ := hsome c rfl
        apply ih (i + 1) (some c) cs ce hdrop'.symm (by omega)
          (by intro h; cases h) ?_ hbest'
        intro c' hc'
        injection hc' with hc'
        subst hc'
        refine ⟨by omega, hclm, ?_⟩
        intro j hj1 hj2
        rcases Nat.lt_or_ge j i with hj | hj
        · exact hcz j hj1 hj
        · have : j = i := by omega
          subst this
          exact hsegi.mpr hv0
    · have hPi : ¬ segZero segs i := fun h => hv0 (hsegi.mp h)
      cases col with
      | none =>
        simp only [scanZeros]
        rw [if_neg hv0]
        apply ih (i + 1) none cs ce hdrop'.symm (by omega)
          (fun _ => Or.inr (by simpa using hPi)) (by intro c hc; cases hc) ?_
        rcases hbest with ⟨h1, h2, h3⟩ | ⟨hm, hlt, hce, hmax, htie⟩
        · left
          refine ⟨h1, h2, ?_⟩
          intro a b hm' hb
          rcases Nat.lt_or_ge b i with hb' | hb'
          · exact h3 a b hm' hb'
          · have hbeq : b = i := by omega
            subst hbeq
            by_contra hne
            have hablt : a < b := Nat.lt_of_le_of_ne hm'.1.1 hne
            have hz := hm'.1.2.2 (b - 1) (by omega) (by omega)
            rcases hnone rfl with h0 | hP
            · omega
            · exact hP hz
        · right
          refine ⟨hm, hlt, by omega, ?_, ?_⟩
          · intro a b hm' hb
            rcases Nat.lt_or_ge b i with hb' | hb'
            · exact hmax a b hm' hb'
            · have hbeq : b = i := by omega
              subst hbeq
              have hab : a = b := by
                by_contra hne
                have hablt : a < b := Nat.lt_of_le_of_ne hm'.1.1 hne
                have hz := hm'.1.2.2 (b - 1) (by omega) (by omega)
                rcases hnone rfl with h0 | hP
                · omega
                · exact hP hz
              omega
          · intro a b hm' hb hlen
            rcases Nat.lt_or_ge b i with hb' | hb'
            · exact htie a b hm' hb' hlen
            · have hbeq : b = i := by omega
              subst hbeq
              have hab : a = b := by
                by_contra hne
                have hablt : a < b := Nat.lt_of_le_of_ne hm'.1.1 hne
                have hz := hm'.1.2.2 (b - 1) (by omega) (by omega)
                rcases hnone rfl with h0 | hP
                · omega
                · exact hP hz
              omega
      | some c =>
        obtain ⟨hci, hclm, hcz⟩ := hsome c rfl
        simp only [scanZeros]
        rw [if_neg hv0]
        by_cases hcmp : i - c > ce - cs
        · rw [if_pos hcmp]
          apply ih (i + 1) none c i hdrop'.symm (by omega)
            (fun _ => Or.inr (by simpa using hPi)) (by intro c' hc'; cases hc') ?_
          right
          have hmr : MaxRun segs c i := ⟨⟨by omega, by omega, hcz⟩, hclm, hPi⟩
          refine ⟨hmr, by omega, by omega, ?_, ?_⟩
          · intro a b hm' hb
            rcases Nat.lt_or_ge b i with hb' | hb'
            · rcases hbest with ⟨_, _, h3⟩ | ⟨_, _, _, hmax, _⟩
              · have := h3 a b hm' hb'
                omega
              · have := hmax a b hm' hb'
                omega
            · have hbeq : b = i := by omega
              subst hbeq
              have := maxrun_start_unique hm' hcz hclm (by omega)
              omega
          · intro a b hm' hb hlen
            rcases Nat.lt_or_ge b i with hb' | hb'
            · exfalso
              rcases hbest with ⟨_, _, h3⟩ | ⟨_, _, _, hmax, _⟩
              · have := h3 a b hm' hb'
                omega
              · have := hmax a b hm' hb'
                omega
            · have hbeq : b = i := by omega
              subst hbeq
              have := maxrun_start_unique hm' hcz hclm (by omega)
              omega
        · rw [if_neg hcmp]
          apply ih (i + 1) none cs ce hdrop'.symm (by omega)
            (fun _ => Or.inr (by simpa using hPi)) (by intro c' hc'; cases hc') ?_
          rcases hbest with ⟨h1, h2, h3⟩ | ⟨hm, hlt, hce, hmax, htie⟩
          · left
            have hceq : c = i := by omega
            refine ⟨h1, h2, ?_⟩
            intro a b hm' hb
            rcases Nat.lt_or_ge b i with hb' | hb'
            · exact h3 a b hm' hb'
            · have hbeq : b = i := by omega
              subst hbeq
              have := maxrun_start_unique hm' hcz hclm (by omega)
              omega
          · right
            have hcge : ce < c ∨ c = i := by
              by_contra hcon
              push_neg at hcon
              obtain ⟨hle, hne⟩ := hcon
              exact hm.2.2 (hcz ce (by omega) (by omega))
            refine ⟨hm, hlt, by omega, ?_, ?_⟩
            · intro a b hm' hb
              rcases Nat.lt_or_ge b i with hb' | hb'
              · exact hmax a b hm' hb'
              · have hbeq : b = i := by omega
                subst hbeq
                have := maxrun_start_unique hm' hcz hclm (by omega)
                omega
            · intro a b hm' hb hlen
              rcases Nat.lt_or_ge b i with hb' | hb'
              · exact htie a b hm' hb' hlen
              · have hbeq : b = i := by omega
                subst hbeq
                have hac := maxrun_start_unique hm' hcz hclm (by omega)
                rcases hcge with h | h
                · omega
                · omega

/-- The chosen run: either no compression (first mark at `end`), or
the first longest maximal zero run, of length at least two. -/
theorem collapseRun_spec (segs : List Nat) :
    (collapseRun segs).1 = segs.length ∨
    (MaxRun segs (collapseRun segs).1 (collapseRun segs).2 ∧
      (collapseRun segs).1 + 2 ≤ (collapseRun segs).2 ∧
      (∀ a b, MaxRun segs a b →
        b - a ≤ (collapseRun segs).2 - (collapseRun segs).1) ∧
      (∀ a b, MaxRun segs a b →
        b - a = (collapseRun segs).2 - (collapseRun segs).1 →
        (collapseRun segs).1 ≤ a)) := by
  have hspec := scanZeros_spec segs segs 0 none segs.length segs.length
    (List.drop_zero segs).symm (Nat.zero_le _) (fun _ => Or.inl rfl)
    (by intro c hc; cases hc)
    (Or.inl ⟨rfl, rfl, fun a b _ hb => absurd hb (Nat.not_lt_zero b)⟩)
  unfold collapseRun
  rcases hspec with ⟨h1, h2, h3⟩ | ⟨hm, hlt, _, hmax, htie⟩
  · rw [if_neg (by omega)]
    left
    exact h1
  · have hble : ∀ a b, MaxRun segs a b → b < segs.length + 1 := by
      intro a b hm'
      have := hm'.1.2.1
      omega
    by_cases hone : (scanZeros segs 0 none segs.length segs.length).2
        - (scanZeros segs 0 none segs.length segs.length).1 = 1
    · rw [if_pos hone]
      left
      rfl
    · rw [if_neg hone]
      right
      refine ⟨hm, by omega, ?_, ?_⟩
      · intro a b hm'
        exact hmax a b hm' (hble a b hm')
      · intro a b hm' hlen
        exact htie a b hm' (hble a b hm') hlen

/-! ### Structure of the printed form -/

theorem printGroups_plain (n cs ce : Nat) (hcs : cs ≤ n) :
    ∀ (gs1 gs2 : List Nat) (i : Nat), i + gs1.length = cs →
      printGroups n cs ce (gs1 ++ gs2) i
        = joinColon (gs1.map hexRepr) ++ printGroups n cs ce gs2 cs := by
  intro gs1
  induction gs1 with
  | nil =>
    intro gs2 i hend
    simp only [List.length_nil, Nat.add_zero] at hend
    subst hend
    simp [joinColon]
  | cons g gs1' ih =>
    intro gs2 i hend
    simp only [List.length_cons] at hend
    have hilt : i < cs := by omega
    rw [List.cons_append]
    simp only [printGroups]
    rw [if_neg (by omega : ¬ i = cs), if_neg (by omega : ¬ (cs ≤ i ∧ i < ce))]
    cases gs1' with
    | nil =>
      have h1 : i + 1 = cs := by simpa using hend
      rw [if_neg (by omega : ¬ (i + 1 ≠ n ∧ i + 1 ≠ cs))]
      simp only [List.nil_append, List.map_cons, List.map_nil]
      have := ih gs2 (i + 1) (by simpa using hend)
      rw [show ([] : List Nat) ++ gs2 = gs2 from rfl] at this
      rw [this]
      simp [joinColon]
    | cons g2 gs1'' =>
      have h1 : i + 1 < cs := by
        simp only [List.length_cons] at hend
        omega
      rw [if_pos ⟨by omega, by omega⟩]
      rw [ih gs2 (i + 1) (by simp only [List.length_cons] at hend ⊢; omega)]
      simp only [List.map_cons, joinColon, List.nil_append]
      simp [joinColon, List.append_assoc]

theorem printGroups_run_aux (n cs ce : Nat) :
    ∀ (gsR gs2 : List Nat) (j : Nat), cs < j → j + gsR.length = ce →
      printGroups n cs ce (gsR ++ gs2) j = printGroups n cs ce gs2 ce := by
  intro gsR
  induction gsR with
  | nil =>
    intro gs2 j hj hend
    simp only [List.length_nil, Nat.add_zero] at hend
    subst hend
    rfl
  | cons g gsR' ih =>
    intro gs2 j hj hend
    simp only [List.length_cons] at hend
    rw [List.cons_append]
    simp only [printGroups]
    rw [if_neg (by omega : ¬ j = cs), if_pos ⟨by omega, by omega⟩]
    simp only [List.nil_append]
    exact ih gs2 (j + 1) (by omega) (by omega)

theorem printGroups_run (n cs ce : Nat) (hlt : cs < ce) :
    ∀ (gsR gs2 : List Nat), cs + gsR.length = ce →
      printGroups n cs ce (gsR ++ gs2) cs
        = ':' :: ':' :: printGroups n cs ce gs2 ce := by
  intro gsR gs2 hend
  cases gsR with
  | nil =>
    simp only [List.length_nil, Nat.add_zero] at hend
    omega
  | cons g gsR' =>
    rw [List.cons_append]
    simp only [printGroups, if_true]
    rw [if_pos ⟨le_refl cs, hlt⟩]
    simp only [List.length_cons] at hend
    have := printGroups_run_aux n cs ce gsR' gs2 (cs + 1) (by omega) (by omega)
    rw [this]
    rfl

theorem printGroups_tail (n cs ce : Nat) :
    ∀ (gs : List Nat) (i : Nat), i + gs.length = n →
      ((cs < ce ∧ ce ≤ i) ∨ cs = n) →
      printGroups n cs ce gs i = joinColon (gs.map hexRepr) := by
  intro gs
  induction gs with
  | nil =>
    intro i _ _
    rfl
  | cons g gs' ih =>
    intro i hend hmode
    simp only [List.length_cons] at hend
    have hin : i < n := by omega
    simp only [printGroups]
    have hics : ¬ i = cs := by
      rcases hmode with ⟨h1, h2⟩ | h1 <;> omega
    have hskip : ¬ (cs ≤ i ∧ i < ce) := by
      rcases hmode with ⟨h1, h2⟩ | h1
      · omega
      · omega
    rw [if_neg hics, if_neg hskip]
    cases gs' with
    | nil =>
      have h1 : i + 1 = n := by simpa using hend
      rw [if_neg (by omega : ¬ (i + 1 ≠ n ∧ i + 1 ≠ cs))]
      simp [printGroups, joinColon]
    | cons g2 gs'' =>
      have h1 : i + 1 < n := by
        simp only [List.length_cons] at hend
        omega
      have hsep : i + 1 ≠ n ∧ i + 1 ≠ cs := by
        constructor
        · omega
        · rcases hmode with ⟨ha, hb⟩ | ha <;> omega
      rw [if_pos hsep]
      rw [ih (i + 1) (by simp only [List.length_cons] at hend ⊢; omega)
        (by rcases hmode with ⟨ha, hb⟩ | ha
            · exact Or.inl ⟨ha, by omega⟩
            · exact Or.inr ha)]
      simp only [List.map_cons, joinColon, List.nil_append]
      simp [joinColon, List.append_assoc]

/-- `collapse` when no run is compressed: the eight groups joined by
single colons. -/
theorem collapse_none {segs : List Nat}
    (h : (collapseRun segs).1 = segs.length) :
    collapse segs = joinColon (segs.map hexRepr) := by
  unfold collapse
  rw [h]
  exact printGroups_tail segs.length segs.length (collapseRun segs).2 segs 0
    (by simp) (Or.inr rfl)

/-- `collapse` with a compressed run `[cs, ce)`: groups before the run,
a double colon, groups after the run. -/
theorem collapse_run {segs : List Nat}
    (hlt : (collapseRun segs).1 < (collapseRun segs).2)
    (hle : (collapseRun segs).2 ≤ segs.length) :
    collapse segs
      = joinColon ((segs.take (collapseRun segs).1).map hexRepr)
        ++ ':' :: ':' :: joinColon ((segs.drop (collapseRun segs).2).map hexRepr) := by
  unfold collapse
  have hsplit1 : segs = segs.take (collapseRun segs).1
      ++ ((segs.drop (collapseRun segs).1).take
            ((collapseRun segs).2 - (collapseRun segs).1)
          ++ segs.drop (collapseRun segs).2) := by
    rw [show segs.drop (collapseRun segs).2
        = (segs.drop (collapseRun segs).1).drop
            ((collapseRun segs).2 - (collapseRun segs).1) from by
      rw [List.drop_drop]
      congr 1
      omega]
    rw [List.take_append_drop, List.take_append_drop]
  have hrw : printGroups segs.length (collapseRun segs).1 (collapseRun segs).2 segs 0
      = printGroups segs.length (collapseRun segs).1 (collapseRun segs).2
          (segs.take (collapseRun segs).1
            ++ ((segs.drop (collapseRun segs).1).take
                  ((collapseRun segs).2 - (collapseRun segs).1)
                ++ segs.drop (collapseRun segs).2)) 0 := by
    rw [← hsplit1]
  rw [hrw]
  rw [printGroups_plain segs.length (collapseRun segs).1 (collapseRun segs).2
    (by omega) _ _ 0 (by
      simp only [Nat.zero_add, List.length_take]
      omega)]
  rw [printGroups_run segs.length (collapseRun segs).1 (collapseRun segs).2 hlt _ _
    (by
      simp only [List.length_take, List.length_drop]
      omega)]
  rw [printGroups_tail segs.length (collapseRun segs).1 (collapseRun segs).2 _
    (collapseRun segs).2 (by simp [List.length_drop]; omega)
    (Or.inl ⟨hlt, le_refl _⟩)]

/-! ### Bit-level characterization of floor and ceiling -/

theorem testBit_zeros {W v p : Nat} (hv : v < 2 ^ W) (hp : p ≤ W) (i : Nat) :
    (network_zeros W v p).testBit i = (decide (W - p ≤ i) && v.testBit i) := by
  rw [zeros_eq hv hp, Nat.testBit_mul_pow_two, ← Nat.shiftRight_eq_div_pow,
    Nat.testBit_shiftRight]
  by_cases h : W - p ≤ i
  · rw [show W - p + (i - (W - p)) = i by omega]
  · simp [h]

theorem testBit_ones {W v p : Nat} (hv : v < 2 ^ W) (hp : p ≤ W) (i : Nat) :
    (network_ones W v p).testBit i = (decide (i < W - p) || v.testBit i) := by
  have hlow : 2 ^ (W - p) - 1 < 2 ^ (W - p) := by
    have : (1 : Nat) ≤ 2 ^ (W - p) := Nat.one_le_two_pow
    omega
  rw [ones_eq hv hp, zeros_eq hv hp, Nat.testBit_mul_pow_two_add _ hlow]
  by_cases h : i < W - p
  · simp [h, Nat.testBit_two_pow_sub_one]
  · rw [if_neg h, ← Nat.shiftRight_eq_div_pow, Nat.testBit_shiftRight,
      show W - p + (i - (W - p)) = i by omega]
    simp [h]

theorem zeros_zero (W v : Nat) : network_zeros W v 0 = 0 := by
  unfold network_zeros
  simp

theorem ones_zero (W v : Nat) : network_ones W v 0 = 2 ^ W - 1 := by
  unfold network_ones
  simp

/-! ### Correctness of the greedy decomposer `add` -/

/-- Larger prefix lengths give smaller (or equal) ceilings. -/
theorem ones_antitone {W s p q : Nat} (hs : s < 2 ^ W) (hpq : p ≤ q) (hq : q ≤ W) :
    network_ones W s q ≤ network_ones W s p := by
  have hp : p ≤ W := le_trans hpq hq
  rw [ones_eq hs hq, ones_eq hs hp, zeros_eq hs hq, zeros_eq hs hp]
  have hkk : W - q ≤ W - p := by omega
  have h1 : (1 : Nat) ≤ 2 ^ (W - q) := Nat.one_le_two_pow
  have h2 : (1 : Nat) ≤ 2 ^ (W - p) := Nat.one_le_two_pow
  have hdecomp : 2 ^ (W - p) = 2 ^ (W - q) * 2 ^ (W - p - (W - q)) := by
    rw [← pow_add]
    congr 1
    omega
  have hgt : s < 2 ^ (W - p) * (s / 2 ^ (W - p) + 1) := by
    have hdm := Nat.div_add_mod s (2 ^ (W - p))
    have hmod : s % 2 ^ (W - p) < 2 ^ (W - p) := Nat.mod_lt s (Nat.two_pow_pos _)
    have : 2 ^ (W - p) * (s / 2 ^ (W - p) + 1)
        = 2 ^ (W - p) * (s / 2 ^ (W - p)) + 2 ^ (W - p) := by ring
    omega
  have ht : s / 2 ^ (W - q) < 2 ^ (W - p - (W - q)) * (s / 2 ^ (W - p) + 1) := by
    rw [Nat.div_lt_iff_lt_mul (Nat.two_pow_pos (W - q))]
    calc s < 2 ^ (W - p) * (s / 2 ^ (W - p) + 1) := hgt
    _ = 2 ^ (W - p - (W - q)) * (s / 2 ^ (W - p) + 1) * 2 ^ (W - q) := by
        rw [hdecomp]; ring
  have key : 2 ^ (W - q) * (s / 2 ^ (W - q) + 1)
      ≤ 2 ^ (W - p) * (s / 2 ^ (W - p) + 1) := by
    calc 2 ^ (W - q) * (s / 2 ^ (W - q) + 1)
        ≤ 2 ^ (W - q) * (2 ^ (W - p - (W - q)) * (s / 2 ^ (W - p) + 1)) :=
          Nat.mul_le_mul_left _ (by omega)
    _ = 2 ^ (W - p) * (s / 2 ^ (W - p) + 1) := by rw [hdecomp]; ring
  have e1 : 2 ^ (W - q) * (s / 2 ^ (W - q) + 1)
      = 2 ^ (W - q) * (s / 2 ^ (W - q)) + 2 ^ (W - q) := by ring
  have e2 : 2 ^ (W - p) * (s / 2 ^ (W - p) + 1)
      = 2 ^ (W - p) * (s / 2 ^ (W - p)) + 2 ^ (W - p) := by ring
  omega

theorem scanPlen_correct (W s stop : Nat) :
    ∀ f i,
      (∃ j, j < f ∧ network_zeros W s (i + j) = s ∧ network_ones W s (i + j) ≤ stop) →
      (network_zeros W s (scanPlen W s stop f i) = s ∧
        network_ones W s (scanPlen W s stop f i) ≤ stop) ∧
      i ≤ scanPlen W s stop f i ∧
      ∀ t, i ≤ t → t < scanPlen W s stop f i →
        ¬ (network_zeros W s t = s ∧ network_ones W s t ≤ stop) := by
  intro f
  induction f with
  | zero =>
    intro i hex
    obtain ⟨j, hj, _⟩ := hex
    omega
  | succ f ih =>
    intro i hex
    simp only [scanPlen]
    by_cases hP : network_zeros W s i = s ∧ network_ones W s i ≤ stop
    · rw [if_pos hP]
      exact ⟨hP, le_refl i, fun t h1 h2 => absurd h1 (by omega)⟩
    · rw [if_neg hP]
      have hex' : ∃ j, j < f ∧ network_zeros W s (i + 1 + j) = s ∧
          network_ones W s (i + 1 + j) ≤ stop := by
        obtain ⟨j, hj, hzz, hoo⟩ := hex
        cases j with
        | zero => exact absurd ⟨hzz, hoo⟩ hP
        | succ j' =>
          refine ⟨j', by omega, ?_, ?_⟩
          · rw [show i + 1 + j' = i + (j' + 1) by omega]
            exact hzz
          · rw [show i + 1 + j' = i + (j' + 1) by omega]
            exact hoo
      obtain ⟨hPr, hle, hmin⟩ := ih (i + 1) hex'
      refine ⟨hPr, by omega, ?_⟩
      intro t h1 h2
      rcases Nat.eq_or_lt_of_le h1 with heq | hlt
      · rw [← heq]
        exact hP
      · exact hmin t (by omega) h2

theorem findPlen_spec {W start stop : Nat} (hs : start < 2 ^ W) (hss : start ≤ stop) :
    findPlen W start stop ≤ W ∧
    network_zeros W start (findPlen W start stop) = start ∧
    network_ones W start (findPlen W start stop) ≤ stop ∧
    ∀ t, t < findPlen W start stop →
      ¬ (network_zeros W start t = start ∧ network_ones W start t ≤ stop) := by
  have hW : network_zeros W start W = start ∧ network_ones W start W ≤ stop := by
    constructor
    · rw [zeros_eq hs (le_refl W)]
      simp
    · rw [ones_self hs]
      exact hss
  unfold findPlen
  obtain ⟨hP, _, hmin⟩ := scanPlen_correct W start stop (W + 1) 0
    ⟨W, by omega, by simpa using hW.1, by simpa using hW.2⟩
  have hle : scanPlen W start stop (W + 1) 0 ≤ W := by
    by_contra hgt
    exact hmin W (Nat.zero_le W) (by omega) hW
  exact ⟨hle, hP.1, hP.2, fun t ht => hmin t (Nat.zero_le t) ht⟩

theorem addLoop_stop {W f start stop : Nat} (h : ¬ start < stop) :
    addLoop W f start stop = [] := by
  cases f with
  | zero => rfl
  | succ f =>
    simp only [addLoop]
    rw [if_neg h]

/-- The ceiling of a block, `[b.1, blockCeil b]` being its span. -/
def blockCeil (W : Nat) (b : Nat × Nat) : Nat := network_ones W b.1 b.2

/-- An address is covered by a block list when some block's span
contains it. -/
def covered (W : Nat) (bs : List (Nat × Nat)) (x : Nat) : Prop :=
  ∃ b ∈ bs, b.1 ≤ x ∧ x ≤ blockCeil W b

/-- Two blocks cannot be replaced by one larger aligned block spanning
exactly their union. -/
def mergeFree (W : Nat) (b1 b2 : Nat × Nat) : Prop :=
  ¬ ∃ q, q ≤ W ∧ network_zeros W b1.1 q = b1.1 ∧
    network_ones W b1.1 q = blockCeil W b2

theorem covered_nil {W x : Nat} : ¬ covered W [] x := by
  simp [covered]

theorem covered_cons {W : Nat} {b : Nat × Nat} {L : List (Nat × Nat)} {x : Nat} :
    covered W (b :: L) x ↔ (b.1 ≤ x ∧ x ≤ blockCeil W b) ∨ covered W L x := by
  simp [covered]

/-- The full set of properties claimed of the decomposition, with the
union being the half-open interval `[start, e)`. -/
def DecompProps (W start stop e : Nat) (L : List (Nat × Nat)) : Prop :=
  (∀ b ∈ L, network_zeros W b.1 b.2 = b.1 ∧ b.2 ≤ W ∧ b.1 < 2 ^ W ∧
    blockCeil W b ≤ stop) ∧
  List.Chain' (fun b1 b2 => blockCeil W b1 + 1 = b2.1) L ∧
  List.Pairwise (fun b1 b2 => blockCeil W b1 < b2.1) L ∧
  (∀ x, covered W L x ↔ start ≤ x ∧ x < e) ∧
  (∀ b ∈ L.head?, b.1 = start) ∧
  List.Chain' (mergeFree W) L

theorem addLoop_spec {W : Nat} :
    ∀ f start stop, stop - start ≤ f → start ≤ stop → start < 2 ^ W →
      stop < 2 ^ W →
    ∃ e, (e = stop ∨ e = stop + 1) ∧
      DecompProps W start stop e (addLoop W f start stop) := by
  intro f
  induction f with
  | zero =>
    intro start stop hf hss hs hp
    have heq : start = stop := by omega
    refine ⟨stop, Or.inl rfl, ?_, List.chain'_nil, List.Pairwise.nil, ?_, ?_, List.chain'_nil⟩
    · intro b hb
      exact absurd hb (List.not_mem_nil b)
    · intro x
      simp only [addLoop]
      constructor
      · intro h
        exact absurd h covered_nil
      · intro h
        omega
    · intro b hb
      simp [addLoop] at hb
  | succ f ih =>
    intro start stop hf hss hs hp
    by_cases hlt : start < stop
    · simp only [addLoop]
      rw [if_pos hlt]
      obtain ⟨hiW, hzi, hoi, hmin⟩ := findPlen_spec hs hss
      have hsc : start ≤ network_ones W start (findPlen W start stop) := le_ones hs hiW
      have hclt : network_ones W start (findPlen W start stop) < 2 ^ W := ones_lt hs hiW
      by_cases htop : network_ones W start (findPlen W start stop) = network_ones W start 0
      · rw [if_pos htop]
        rw [ones_zero] at htop
        have hstop_eq : network_ones W start (findPlen W start stop) = stop := by omega
        refine ⟨stop + 1, Or.inr rfl, ?_, ?_, ?_, ?_, ?_, ?_⟩
        · intro b hb
          rw [List.mem_singleton] at hb
          subst hb
          exact ⟨hzi, hiW, hs, hoi⟩
        · exact List.chain'_singleton _
        · exact List.pairwise_singleton _ _
        · intro x
          rw [covered_cons]
          simp only [blockCeil]
          constructor
          · intro h
            rcases h with h | h
            · omega
            · exact absurd h covered_nil
          · intro h
            left
            omega
        · intro b hb
          simp only [List.head?_cons, Option.mem_some_iff] at hb
          subst hb
          rfl
        · exact List.chain'_singleton _
      · rw [if_neg htop]
        rw [ones_zero] at htop
        have hceil1 : network_ones W start (findPlen W start stop) + 1 < 2 ^ W := by
          omega
        have hstart' : nextAddr W (network_ones W start (findPlen W start stop))
            = network_ones W start (findPlen W start stop) + 1 := by
          unfold nextAddr
          exact Nat.mod_eq_of_lt hceil1
        by_cases hrec : network_ones W start (findPlen W start stop) + 1 ≤ stop
        · obtain ⟨e, he, ha, hch, hpw, hcov, hhd, hmf⟩ :=
            ih (nextAddr W (network_ones W start (findPlen W start stop))) stop
              (by omega) (by omega) (by omega) hp
          refine ⟨e, he, ?_, ?_, ?_, ?_, ?_, ?_⟩
          · intro b hb
            rcases List.mem_cons.mp hb with hb | hb
            · subst hb
              exact ⟨hzi, hiW, hs, hoi⟩
            · exact ha b hb
          · rw [List.chain'_cons']
            refine ⟨?_, hch⟩
            intro y hy
            have h1 := hhd y hy
            show blockCeil W (start, findPlen W start stop) + 1 = y.1
            simp only [blockCeil]
            omega
          · rw [List.pairwise_cons]
            refine ⟨?_, hpw⟩
            intro y hy
            have hy1lt : y.1 < 2 ^ W := (ha y hy).2.2.1
            have hyy : y.1 ≤ blockCeil W y := le_ones hy1lt (ha y hy).2.1
            have hycov : covered W (addLoop W f
                (nextAddr W (network_ones W start (findPlen W start stop))) stop) y.1 :=
              ⟨y, hy, le_refl _, hyy⟩
            have := (hcov y.1).mp hycov
            simp only [blockCeil]
            omega
          · intro x
            rw [covered_cons, hcov x]
            simp only [blockCeil]
            omega
          · intro b hb
            simp only [List.head?_cons, Option.mem_some_iff] at hb
            subst hb
            rfl
          · rw [List.chain'_cons']
            refine ⟨?_, hmf⟩
            intro y hy hmerge
            obtain ⟨q, hq, hzq, hoq⟩ := hmerge
            have hymem : y ∈ addLoop W f
                (nextAddr W (network_ones W start (findPlen W start stop))) stop :=
              List.mem_of_mem_head? hy
            have hy1 := hhd y hy
            have hyceil : blockCeil W y ≤ stop := (ha y hymem).2.2.2
            have hy1lt : y.1 < 2 ^ W := (ha y hymem).2.2.1
            have hyy : y.1 ≤ blockCeil W y := le_ones hy1lt (ha y hymem).2.1
            have hPq : network_zeros W start q = start ∧
                network_ones W start q ≤ stop := by
              constructor
              · exact hzq
              · rw [hoq]
                exact hyceil
            have hqi : findPlen W start stop ≤ q := by
              by_contra hcon
              exact hmin q (by omega) hPq
            have hmono := ones_antitone hs hqi hq
            simp only [blockCeil] at hoq hy1 hyy hyceil
            omega
        · have hstop_eq : network_ones W start (findPlen W start stop) = stop := by
            omega
          have hrest : addLoop W f
              (nextAddr W (network_ones W start (findPlen W start stop))) stop = [] :=
            addLoop_stop (by omega)
          rw [hrest]
          refine ⟨stop + 1, Or.inr rfl, ?_, ?_, ?_, ?_, ?_, ?_⟩
          · intro b hb
            rw [List.mem_singleton] at hb
            subst hb
            exact ⟨hzi, hiW, hs, hoi⟩
          · exact List.chain'_singleton _
          · exact List.pairwise_singleton _ _
          · intro x
            rw [covered_cons]
            simp only [blockCeil]
            constructor
            · intro h
              rcases h with h | h
              · omega
              · exact absurd h covered_nil
            · intro h
              left
              omega
          · intro b hb
            simp only [List.head?_cons, Option.mem_some_iff] at hb
            subst hb
            rfl
          · exact List.chain'_singleton _
    · rw [addLoop_stop hlt]
      have heq : start = stop := by omega
      refine ⟨stop, Or.inl rfl, ?_, List.chain'_nil, List.Pairwise.nil, ?_, ?_, List.chain'_nil⟩
      · intro b hb
        exact absurd hb (List.not_mem_nil b)
      · intro x
        constructor
        · intro h
          exact absurd h covered_nil
        · intro h
          omega
      · intro b hb
        simp at hb

instance (W : Nat) (bs : List (Nat × Nat)) (x : Nat) : Decidable (covered W bs x) := by
  unfold covered
  exact List.decidableBEx _ bs

/-! ### Output structure of the sweep -/

/-- A callback stream that is a concatenation of `add` flushes over
in-range sub-ranges. -/
def FlushedOut (W : Nat) (o : List (Nat × Nat)) : Prop :=
  ∃ rs : List (Nat × Nat),
    o = (rs.map fun r => add W r.1 r.2).flatten ∧
    ∀ r ∈ rs, r.1 < 2 ^ W ∧ r.2 < 2 ^ W

theorem flushedOut_nil (W : Nat) : FlushedOut W [] := by
  refine ⟨[], rfl, ?_⟩
  intro r hr
  exact absurd hr (List.not_mem_nil r)

theorem flushedOut_append {W : Nat} {o : List (Nat × Nat)} (h : FlushedOut W o)
    {s b : Nat} (hs : s < 2 ^ W) (hb : b < 2 ^ W) :
    FlushedOut W (o ++ add W s b) := by
  obtain ⟨rs, heq, hmem⟩ := h
  refine ⟨rs ++ [(s, b)], ?_, ?_⟩
  · rw [heq]
    simp
  · intro r hr
    rcases List.mem_append.mp hr with hr | hr
    · exact hmem r hr
    · rw [List.mem_singleton] at hr
      subst hr
      exact ⟨hs, hb⟩

theorem nextAddr_lt (W v : Nat) : nextAddr W v < 2 ^ W :=
  Nat.mod_lt _ (Nat.two_pow_pos W)

theorem prevAddr_lt (W v : Nat) : prevAddr W v < 2 ^ W :=
  Nat.mod_lt _ (Nat.two_pow_pos W)

theorem trackStep_invariant {W : Nat} (k : Kern) (op : Bool) (ip : Nat)
    (self : Track) (oc : Int) (hout : FlushedOut W self.out)
    (hstart : self.start < 2 ^ W) (hip : ip < 2 ^ W) :
    FlushedOut W (trackStep W k op ip self oc).out ∧
    (trackStep W k op ip self oc).start < 2 ^ W := by
  unfold trackStep
  by_cases hk : kernEval k self.count oc
  · rw [if_pos hk]
    by_cases hin : self.inside
    · rw [if_pos hin]
      exact ⟨hout, hstart⟩
    · rw [if_neg hin]
      refine ⟨hout, ?_⟩
      by_cases hop : op = true
      · simp [hop, hip]
      · simp [hop, nextAddr_lt]
  · rw [if_neg hk]
    by_cases hin : self.inside
    · rw [if_pos hin]
      refine ⟨?_, hstart⟩
      by_cases hop : op = true
      · simp only [hop, if_pos rfl]
        exact flushedOut_append hout hstart (prevAddr_lt W ip)
      · simp only [Bool.not_eq_true] at hop
        simp only [hop, Bool.false_eq_true, if_neg (Bool.false_ne_true)]
        exact flushedOut_append hout hstart hip
    · rw [if_neg hin]
      exact ⟨hout, hstart⟩

theorem traverseLoop_flushed {W : Nat} (k : Kern) (useB : Bool) :
    ∀ (ms : List Marker) (A B : Track), (∀ m ∈ ms, m.ip < 2 ^ W) →
      FlushedOut W A.out → A.start < 2 ^ W →
      FlushedOut W B.out → B.start < 2 ^ W →
      FlushedOut W (traverseLoop W k useB ms A B).1.out ∧
      FlushedOut W (traverseLoop W k useB ms A B).2.out := by
  intro ms
  induction ms with
  | nil =>
    intro A B _ hA hAs hB hBs
    exact ⟨hA, hB⟩
  | cons m rest ih =>
    intro A B hips hA hAs hB hBs
    have hm : m.ip < 2 ^ W := hips m (List.mem_cons_self m rest)
    have hips' : ∀ x ∈ rest, x.ip < 2 ^ W := fun x hx =>
      hips x (List.mem_cons_of_mem m hx)
    simp only [traverseLoop]
    by_cases hskip : sameIpNext m rest = true
    · rw [if_pos hskip]
      exact ih _ _ hips' hA hAs hB hBs
    · rw [if_neg hskip]
      obtain ⟨hA2, hAs2⟩ := trackStep_invariant k (isOpenM m.type) m.ip
        { A with count := A.count + bumpA m.type } _ hA hAs hm
      by_cases hu : useB = true
      · obtain ⟨hB2, hBs2⟩ := trackStep_invariant k (isOpenM m.type) m.ip
          { B with count := B.count + bumpB m.type } _ hB hBs hm
        rw [if_pos hu]
        exact ih _ _ hips' hA2 hAs2 hB2 hBs2
      · rw [if_neg hu]
        exact ih _ _ hips' hA2 hAs2 hB hBs

theorem add_mergeFree_chain {W s b : Nat} (hs : s < 2 ^ W) (hb : b < 2 ^ W) :
    List.Chain' (mergeFree W) (add W s b) := by
  by_cases h : s ≤ b
  · obtain ⟨e, _, _, _, _, _, _, hmf⟩ := addLoop_spec (b - s) s b (le_refl _) h hs hb
    exact hmf
  · unfold add
    rw [addLoop_stop (by omega)]
    exact List.chain'_nil

/-! ### Grouped view of the sweep

The spec describes the sweep per group of markers sharing one address:
all count deltas of the group are applied, then the kernel is evaluated
once.  The functions below spell that grouped processing out (a group
is a head marker plus the following markers at the same address); the
boundary flag comes from the group's LAST marker, which is what the
code's skip logic amounts to. -/

theorem length_dropWhile_le {α : Type} (p : α → Bool) (l : List α) :
    (l.dropWhile p).length ≤ l.length := by
  induction l with
  | nil => simp
  | cons x xs ih =>
    rw [List.dropWhile_cons]
    by_cases h : p x = true
    · rw [if_pos h]
      exact Nat.le_succ_of_le ih
    · rw [if_neg h]

/-- Adjacent markers with equal addresses, grouped: each group is a
head marker together with the following same-address markers. -/
def groupsByIp : List Marker → List (Marker × List Marker)
  | [] => []
  | m :: rest =>
    (m, rest.takeWhile fun x => x.ip == m.ip) ::
      groupsByIp (rest.dropWhile fun x => x.ip == m.ip)
termination_by l => l.length
decreasing_by
  simp only [List.length_cons]
  exact Nat.lt_succ_of_le (length_dropWhile_le _ _)

def sumBumpA (g : List Marker) : Int := (g.map fun m => bumpA m.type).sum

def sumBumpB (g : List Marker) : Int := (g.map fun m => bumpB m.type).sum

/-- One logical step of the grouped sweep: apply every count delta of
the group, then evaluate the kernel once at the group's address, the
boundary flag taken from the group's last marker. -/
def chunkStep (W : Nat) (k : Kern) (useB : Bool) (m : Marker) (g : List Marker)
    (A B : Track) : Track × Track :=
  (trackStep W k (isOpenM ((m :: g).getLast (List.cons_ne_nil m g)).type)
    ((m :: g).getLast (List.cons_ne_nil m g)).ip
    { A with count := A.count + sumBumpA (m :: g) } (B.count + sumBumpB (m :: g)),
   if useB then
     trackStep W k (isOpenM ((m :: g).getLast (List.cons_ne_nil m g)).type)
       ((m :: g).getLast (List.cons_ne_nil m g)).ip
       { B with count := B.count + sumBumpB (m :: g) } (A.count + sumBumpA (m :: g))
   else { B with count := B.count + sumBumpB (m :: g) })

def traverseGrouped (W : Nat) (k : Kern) (useB : Bool) :
    List (Marker × List Marker) → Track → Track → Track × Track
  | [], A, B => (A, B)
  | g :: gs, A, B =>
    traverseGrouped W k useB gs
      (chunkStep W k useB g.1 g.2 A B).1 (chunkStep W k useB g.1 g.2 A B).2

theorem traverseLoop_group (W : Nat) (k : Kern) (useB : Bool) :
    ∀ (g : List Marker) (m : Marker) (tail : List Marker) (A B : Track),
      (∀ x ∈ g, x.ip = m.ip) → sameIpNext m tail = false →
      traverseLoop W k useB (m :: (g ++ tail)) A B =
        traverseLoop W k useB tail
          (chunkStep W k useB m g A B).1 (chunkStep W k useB m g A B).2 := by
  intro g
  induction g with
  | nil =>
    intro m tail A B _ htail
    simp only [List.nil_append, traverseLoop, htail, Bool.false_eq_true, if_false,
      chunkStep, sumBumpA, sumBumpB, List.map_cons, List.map_nil, List.sum_cons,
      List.sum_nil, List.getLast_singleton, Int.add_zero]
  | cons x g' ih =>
    intro m tail A B hg htail
    have hx : x.ip = m.ip := hg x (List.mem_cons_self x g')
    have hskip : sameIpNext m ((x :: g') ++ tail) = true := by
      simp [sameIpNext, hx]
    conv_lhs => rw [traverseLoop]
    rw [if_pos hskip, List.cons_append]
    have hg' : ∀ y ∈ g', y.ip = x.ip := by
      intro y hy
      rw [hg y (List.mem_cons_of_mem x hy), hx]
    have htail' : sameIpNext x tail = false := by
      cases tail with
      | nil => rfl
      | cons n _ =>
        simp only [sameIpNext, beq_iff_eq] at htail ⊢
        rw [hx]
        exact htail
    rw [ih x tail _ _ hg' htail']
    have hlast : (x :: g').getLast (List.cons_ne_nil x g')
        = (m :: x :: g').getLast (List.cons_ne_nil m (x :: g')) := by
      rw [List.getLast_cons (List.cons_ne_nil x g')]
    have hsa : A.count + bumpA m.type + sumBumpA (x :: g')
        = A.count + sumBumpA (m :: x :: g') := by
      simp only [sumBumpA, List.map_cons, List.sum_cons]
      ring
    have hsb : B.count + bumpB m.type + sumBumpB (x :: g')
        = B.count + sumBumpB (m :: x :: g') := by
      simp only [sumBumpB, List.map_cons, List.sum_cons]
      ring
    simp only [chunkStep, ← hlast, hsa, hsb]

theorem groupsByIp_nil : groupsByIp [] = [] := by
  rw [groupsByIp]

theorem traverse_eq_grouped_aux (W : Nat) (k : Kern) (useB : Bool) :
    ∀ (n : Nat) (ms : List Marker), ms.length ≤ n → ∀ A B : Track,
      traverseLoop W k useB ms A B =
        traverseGrouped W k useB (groupsByIp ms) A B := by
  intro n
  induction n with
  | zero =>
    intro ms hlen A B
    have h0 : ms = [] := List.length_eq_zero.mp (by omega)
    subst h0
    rw [groupsByIp_nil]
    rfl
  | succ n ih =>
    intro ms hlen A B
    cases ms with
    | nil =>
      rw [groupsByIp_nil]
      rfl
    | cons m rest =>
      rw [show groupsByIp (m :: rest)
          = (m, rest.takeWhile fun x => x.ip == m.ip) ::
            groupsByIp (rest.dropWhile fun x => x.ip == m.ip) from by
        rw [groupsByIp]]
      have hsplit : rest = (rest.takeWhile fun x => x.ip == m.ip)
          ++ (rest.dropWhile fun x => x.ip == m.ip) :=
        (List.takeWhile_append_dropWhile _ _).symm
      have hmem : ∀ x ∈ rest.takeWhile fun x => x.ip == m.ip, x.ip = m.ip := by
        intro x hx
        have := List.mem_takeWhile_imp hx
        simpa using this
      have hnot : sameIpNext m (rest.dropWhile fun x => x.ip == m.ip) = false := by
        have hh := List.head?_dropWhile_not (fun x => x.ip == m.ip) rest
        cases hd : (rest.dropWhile fun x => x.ip == m.ip).head? with
        | none =>
          cases he : rest.dropWhile fun x => x.ip == m.ip with
          | nil => rfl
          | cons a l =>
            rw [he] at hd
            simp at hd
        | some a =>
          rw [hd] at hh
          cases he : rest.dropWhile fun x => x.ip == m.ip with
          | nil =>
            rw [he] at hd
            simp at hd
          | cons b l =>
            rw [he] at hd
            simp only [List.head?_cons, Option.some.injEq] at hd
            subst hd
            simpa [sameIpNext] using hh
      conv_lhs => rw [hsplit]
      rw [traverseLoop_group W k useB _ m _ A B hmem hnot]
      rw [traverseGrouped]
      exact ih _ (by
        have h1 := length_dropWhile_le (fun x => x.ip == m.ip) rest
        simp only [List.length_cons] at hlen
        omega) _ _

/-! ### Consumption of the printed form by the parse loop -/

theorem joinColon_append (A : List (List Char)) (b : List Char) (hA : A ≠ []) :
    joinColon (A ++ [b]) = joinColon A ++ ':' :: b := by
  induction A with
  | nil => exact absurd rfl hA
  | cons a A ih =>
    cases A with
    | nil => rfl
    | cons a2 A2 =>
      show a ++ ':' :: joinColon ((a2 :: A2) ++ [b]) = (a ++ ':' :: joinColon (a2 :: A2)) ++ ':' :: b
      rw [ih (by simp)]
      simp

theorem joinColon_cons_head (g : Nat) (L : List (List Char)) :
    ∃ c t, joinColon (hexRepr g :: L) = c :: t ∧ isHexDigit c := by
  obtain ⟨c, cs, hgc⟩ := List.exists_cons_of_ne_nil (hexRepr_ne_nil g)
  have hcmem : isHexDigit c := hexRepr_isHexDigit c (hgc ▸ List.mem_cons_self c cs)
  cases L with
  | nil => exact ⟨c, cs, by simp [joinColon, hgc], hcmem⟩
  | cons l L2 =>
    refine ⟨c, cs ++ ':' :: joinColon (l :: L2), ?_, hcmem⟩
    show hexRepr g ++ ':' :: joinColon (l :: L2) = _
    rw [hgc]
    simp

theorem joinColon_snoc_decomp (L : List (List Char)) (g : List Char) :
    ∃ P, joinColon (L ++ [g]) = P ++ g := by
  cases L with
  | nil => exact ⟨[], rfl⟩
  | cons l L2 =>
    exact ⟨joinColon (l :: L2) ++ [':'], by rw [joinColon_append _ _ (by simp)]; simp⟩

theorem getLast_append_hexRepr (p : List Char) (g : Nat) :
    ∃ c, (p ++ hexRepr g).getLast? = some c ∧ isHexDigit c := by
  have hne := hexRepr_ne_nil g
  refine ⟨(hexRepr g).getLast hne, ?_, hexRepr_isHexDigit _ (List.getLast_mem hne)⟩
  rw [List.getLast?_append, List.getLast?_eq_getLast _ hne]
  rfl

theorem p6loop_hexChunk (seg2 : List Char) (hh : ∀ c ∈ seg2, isHexDigit c) :
    ∀ (rest seg : List Char) (f s : List Nat) (u : Bool),
      p6loop (seg2 ++ rest) seg f s u = p6loop rest (seg ++ seg2) f s u := by
  induction seg2 with
  | nil =>
    intro rest seg f s u
    simp
  | cons c t ih =>
    intro rest seg f s u
    have hc : ('a' ≤ c ∧ c ≤ 'f') ∨ ('A' ≤ c ∧ c ≤ 'F') ∨ ('0' ≤ c ∧ c ≤ '9') :=
      hh c (List.mem_cons_self c t)
    rw [List.cons_append, p6loop, if_pos hc,
      ih (fun x hx => hh x (List.mem_cons_of_mem c hx)) rest (seg ++ [c]) f s u]
    simp

theorem p6loop_last (g : Nat) (f s : List Nat) (u : Bool) :
    p6loop (hexRepr g) [] f s u = .ended f s u (hexRepr g) := by
  have h := p6loop_hexChunk (hexRepr g) hexRepr_isHexDigit [] [] f s u
  simpa [p6loop] using h

theorem p6loop_colon_switch (rest : List Char) (f s : List Nat) :
    p6loop (':' :: rest) [] f s false = p6loop rest [] f s true := by
  rw [p6loop, if_neg (by decide), if_pos rfl, if_neg (by decide),
    if_pos (show ([] : List Char).length = 0 from rfl), if_neg (by decide)]

theorem p6loop_group {g : Nat} (hg : g < 2 ^ 16) (rest : List Char)
    (f s : List Nat) (u : Bool) :
    p6loop (hexRepr g ++ ':' :: rest) [] f s u
      = p6loop rest [] (if u then f else f ++ [g]) (if u then s ++ [g] else s) u := by
  rw [p6loop_hexChunk (hexRepr g) hexRepr_isHexDigit (':' :: rest) [] f s u]
  rw [p6loop, if_neg (by
      intro hcon
      exact isHexDigit_ne_colon hcon rfl),
    if_pos rfl,
    if_neg (by
      have := hexRepr_len_le hg
      simp only [List.nil_append]
      omega),
    if_neg (by
      have := hexRepr_ne_nil g
      simp only [List.nil_append]
      simpa using this)]
  rw [List.nil_append, parse_segment_hexRepr hg]
  cases u <;> simp

theorem p6loop_joinColon (gs : List Nat) (hgs : ∀ v ∈ gs, v < 2 ^ 16) (hne : gs ≠ []) :
    ∀ (rest : List Char) (f s : List Nat) (u : Bool),
      p6loop (joinColon (gs.map hexRepr) ++ ':' :: rest) [] f s u
        = p6loop rest [] (if u then f else f ++ gs) (if u then s ++ gs else s) u := by
  induction gs with
  | nil => exact absurd rfl hne
  | cons g gs2 ih =>
    intro rest f s u
    have hg : g < 2 ^ 16 := hgs g (List.mem_cons_self g gs2)
    cases gs2 with
    | nil =>
      show p6loop (hexRepr g ++ ':' :: rest) [] f s u = _
      rw [p6loop_group hg rest f s u]
    | cons g2 gs3 =>
      have hstep : joinColon ((g :: g2 :: gs3).map hexRepr) ++ ':' :: rest
          = hexRepr g ++ ':' :: (joinColon ((g2 :: gs3).map hexRepr) ++ ':' :: rest) := by
        show (hexRepr g ++ ':' :: joinColon ((g2 :: gs3).map hexRepr)) ++ ':' :: rest = _
        simp
      rw [hstep, p6loop_group hg _ f s u,
        ih (fun v hv => hgs v (List.mem_cons_of_mem g hv)) (by simp) rest _ _ u]
      cases u <;> simp

theorem p6loop_joinColon_end (gs : List Nat) (g : Nat)
    (hgs : ∀ v ∈ gs ++ [g], v < 2 ^ 16) :
    ∀ (f s : List Nat) (u : Bool),
      p6loop (joinColon ((gs ++ [g]).map hexRepr)) [] f s u
        = .ended (if u then f else f ++ gs) (if u then s ++ gs else s) u (hexRepr g) := by
  intro f s u
  cases gs with
  | nil =>
    show p6loop (joinColon [hexRepr g]) [] f s u = _
    rw [show joinColon [hexRepr g] = hexRepr g from rfl, p6loop_last]
    cases u <;> simp
  | cons g0 gs2 =>
    have hsplit : joinColon (((g0 :: gs2) ++ [g]).map hexRepr)
        = joinColon ((g0 :: gs2).map hexRepr) ++ ':' :: hexRepr g := by
      rw [List.map_append, List.map_singleton,
        joinColon_append _ _ (by simp)]
    rw [hsplit,
      p6loop_joinColon (g0 :: gs2)
        (fun v hv => hgs v (List.mem_append_left _ hv)) (by simp) (hexRepr g) f s u,
      p6loop_last]

/-! ### Correctness of the two assembly loops -/

/-- Oring a 16-bit value into a slot whose bits are clear is addition. -/
theorem or_middle {h v k : Nat} (hv : v < 2 ^ 16) (hmid : h / 2 ^ k % 2 ^ 16 = 0) :
    h ||| v <<< k = h + v * 2 ^ k := by
  have hk16 : (2 : Nat) ^ (k + 16) = 2 ^ k * 2 ^ 16 := pow_add 2 k 16
  have hmod : h % 2 ^ (k + 16) = h % 2 ^ k := by
    rw [hk16, Nat.mod_mul, hmid]
    simp
  have hdec : h = 2 ^ (k + 16) * (h / 2 ^ (k + 16)) + h % 2 ^ k := by
    conv_lhs => rw [← Nat.div_add_mod h (2 ^ (k + 16))]
    rw [hmod]
  have hBk : h % 2 ^ k < 2 ^ k := Nat.mod_lt _ (Nat.pos_pow_of_pos k (by norm_num))
  have hB16 : h % 2 ^ k < 2 ^ (k + 16) :=
    lt_of_lt_of_le hBk (Nat.pow_le_pow_right (by norm_num) (by omega))
  have hvB : v * 2 ^ k + h % 2 ^ k < 2 ^ (k + 16) := by
    have h1 : v * 2 ^ k + h % 2 ^ k < (v + 1) * 2 ^ k := by
      have hx : (v + 1) * 2 ^ k = v * 2 ^ k + 2 ^ k := by ring
      omega
    have h2 : (v + 1) * 2 ^ k ≤ 2 ^ 16 * 2 ^ k :=
      Nat.mul_le_mul_right _ (by omega)
    calc v * 2 ^ k + h % 2 ^ k < (v + 1) * 2 ^ k := h1
      _ ≤ 2 ^ 16 * 2 ^ k := h2
      _ = 2 ^ (k + 16) := by rw [hk16]; ring
  calc h ||| v <<< k
      = (2 ^ (k + 16) * (h / 2 ^ (k + 16)) + h % 2 ^ k) ||| v * 2 ^ k := by
        rw [← hdec, Nat.shiftLeft_eq]
    _ = ((2 ^ (k + 16) * (h / 2 ^ (k + 16))) ||| (h % 2 ^ k)) ||| (v * 2 ^ k) := by
        rw [← Nat.mul_add_lt_is_or hB16]
    _ = (2 ^ (k + 16) * (h / 2 ^ (k + 16))) ||| ((h % 2 ^ k) ||| (v * 2 ^ k)) :=
        Nat.lor_assoc _ _ _
    _ = (2 ^ (k + 16) * (h / 2 ^ (k + 16))) ||| (v * 2 ^ k + h % 2 ^ k) := by
        rw [Nat.lor_comm (h % 2 ^ k), show v * 2 ^ k = 2 ^ k * v by ring,
          ← Nat.mul_add_lt_is_or hBk]
    _ = 2 ^ (k + 16) * (h / 2 ^ (k + 16)) + (v * 2 ^ k + h % 2 ^ k) := by
        rw [← Nat.mul_add_lt_is_or hvB]
    _ = h + v * 2 ^ k := by omega

theorem asmFirstGo_append (l1 l2 : List Nat) : ∀ (i : Nat) (nh : Nat × Nat),
    asmFirstGo (l1 ++ l2) i nh = asmFirstGo l2 (i + l1.length) (asmFirstGo l1 i nh) := by
  induction l1 with
  | nil =>
    intro i nh
    simp [asmFirstGo]
  | cons v t ih =>
    intro i nh
    rw [List.cons_append]
    show asmFirstGo (t ++ l2) (i + 1) _ = _
    rw [ih (i + 1)]
    show asmFirstGo l2 (i + 1 + t.length) _ = asmFirstGo l2 (i + (t.length + 1)) _
    congr 1
    omega

theorem asmSecondRev_append (l1 l2 : List Nat) : ∀ (i : Nat) (nh : Nat × Nat),
    asmSecondRev (l1 ++ l2) i nh
      = asmSecondRev l2 (i + l1.length) (asmSecondRev l1 i nh) := by
  induction l1 with
  | nil =>
    intro i nh
    simp [asmSecondRev]
  | cons v t ih =>
    intro i nh
    rw [List.cons_append]
    show asmSecondRev (t ++ l2) (i + 1) _ = _
    rw [ih (i + 1)]
    show asmSecondRev l2 (i + 1 + t.length) _ = asmSecondRev l2 (i + (t.length + 1)) _
    congr 1
    omega

theorem asmFirstGo_or (l : List Nat) : ∀ (i a h : Nat),
    asmFirstGo l i (a, h)
      = (a ||| (asmFirstGo l i (0, 0)).1, h ||| (asmFirstGo l i (0, 0)).2) := by
  induction l with
  | nil =>
    intro i a h
    simp [asmFirstGo]
  | cons v t ih =>
    intro i a h
    show asmFirstGo t (i + 1) _
      = (a ||| (asmFirstGo t (i + 1) _).1, h ||| (asmFirstGo t (i + 1) _).2)
    by_cases hi : i < 4
    · rw [if_pos hi, if_pos hi, ih (i + 1) (a ||| v <<< ((3 - i) * 16)) h,
        ih (i + 1) (0 ||| v <<< ((3 - i) * 16)) 0]
      simp [Nat.lor_assoc]
    · rw [if_neg hi, if_neg hi, ih (i + 1) a (h ||| v <<< ((7 - i) * 16)),
        ih (i + 1) 0 (0 ||| v <<< ((7 - i) * 16))]
      simp [Nat.lor_assoc]

theorem asmSecondRev_or (l : List Nat) : ∀ (i a h : Nat),
    asmSecondRev l i (a, h)
      = (a ||| (asmSecondRev l i (0, 0)).1, h ||| (asmSecondRev l i (0, 0)).2) := by
  induction l with
  | nil =>
    intro i a h
    simp [asmSecondRev]
  | cons v t ih =>
    intro i a h
    show asmSecondRev t (i + 1) _
      = (a ||| (asmSecondRev t (i + 1) _).1, h ||| (asmSecondRev t (i + 1) _).2)
    by_cases hi : i < 4
    · rw [if_pos hi, if_pos hi, ih (i + 1) a (h ||| v <<< (i * 16)),
        ih (i + 1) 0 (0 ||| v <<< (i * 16))]
      simp [Nat.lor_assoc]
    · rw [if_neg hi, if_neg hi, ih (i + 1) (a ||| v <<< ((i - 4) * 16)) h,
        ih (i + 1) (0 ||| v <<< ((i - 4) * 16)) 0]
      simp [Nat.lor_assoc]

/-- Inserting the second vector backwards from the low end fills the
same slots as a forward first-vector pass starting at the matching
group index. -/
theorem asmSecondRev_corr (l : List Nat) : ∀ (d : Nat) (nh : Nat × Nat),
    d + l.length ≤ 8 →
    asmSecondRev l.reverse d nh = asmFirstGo l (8 - d - l.length) nh := by
  induction l with
  | nil =>
    intro d nh _
    rfl
  | cons v t ih =>
    intro d nh hle
    obtain ⟨a0, h0⟩ := nh
    simp only [List.length_cons] at hle
    rw [List.reverse_cons, asmSecondRev_append, List.length_reverse,
      ih d (a0, h0) (by omega)]
    show asmSecondRev [v] (d + t.length) (asmFirstGo t (8 - d - t.length) (a0, h0))
      = asmFirstGo (v :: t) (8 - d - (v :: t).length) (a0, h0)
    simp only [asmSecondRev, asmFirstGo, List.length_cons]
    have hidx : 8 - d - (t.length + 1) + 1 = 8 - d - t.length := by omega
    rw [hidx]
    rcases hPQ : asmFirstGo t (8 - d - t.length) (0, 0) with ⟨P, Q⟩
    by_cases hi : d + t.length < 4
    · have hj : ¬ (8 - d - (t.length + 1) < 4) := by omega
      rw [if_pos hi, if_neg hj]
      have h7 : 7 - (8 - d - (t.length + 1)) = d + t.length := by omega
      rw [h7, asmFirstGo_or t (8 - d - t.length) a0 h0,
        asmFirstGo_or t (8 - d - t.length) a0 (h0 ||| v <<< ((d + t.length) * 16)),
        hPQ]
      simp only [Prod.mk.injEq, true_and, and_true]
      rw [Nat.lor_assoc, Nat.lor_assoc,
        Nat.lor_comm Q (v <<< ((d + t.length) * 16))]
    · have hj : 8 - d - (t.length + 1) < 4 := by omega
      rw [if_neg hi, if_pos hj]
      have h3 : 3 - (8 - d - (t.length + 1)) = d + t.length - 4 := by omega
      rw [h3, asmFirstGo_or t (8 - d - t.length) a0 h0,
        asmFirstGo_or t (8 - d - t.length)
          (a0 ||| v <<< ((d + t.length - 4) * 16)) h0,
        hPQ]
      simp only [Prod.mk.injEq, true_and, and_true]
      rw [Nat.lor_assoc, Nat.lor_assoc,
        Nat.lor_comm P (v <<< ((d + t.length - 4) * 16))]

theorem asmFirstGo_zeros (l : List Nat) (hz : ∀ v ∈ l, v = 0) :
    ∀ (i : Nat) (nh : Nat × Nat), asmFirstGo l i nh = nh := by
  induction l with
  | nil =>
    intro i nh
    rfl
  | cons v t ih =>
    intro i nh
    have hv : v = 0 := hz v (List.mem_cons_self v t)
    show asmFirstGo t (i + 1) _ = nh
    rw [hv]
    simp only [Nat.zero_shiftLeft, Nat.or_zero, ite_self]
    exact ih (fun x hx => hz x (List.mem_cons_of_mem v hx)) (i + 1) nh

/-- When the groups strictly between the two vectors are all zero, the
two-pass assembly equals a single forward pass over the whole vector. -/
theorem assemble_take_drop (segs : List Nat) (cs ce : Nat) (hcs : cs ≤ ce)
    (hce : ce ≤ segs.length) (hlen : segs.length = 8)
    (hz : ∀ j, cs ≤ j → j < ce → segs.getD j 1 = 0) :
    assemble (segs.take cs) (segs.drop ce) = asmFirstGo segs 0 (0, 0) := by
  unfold assemble
  have hdlen : (segs.drop ce).length = 8 - ce := by
    rw [List.length_drop, hlen]
  rw [asmSecondRev_corr (segs.drop ce) 0 _ (by omega)]
  have hidx : 8 - 0 - (segs.drop ce).length = ce := by
    rw [hdlen]
    omega
  rw [hidx]
  have hsplit : segs = segs.take cs
      ++ ((segs.drop cs).take (ce - cs) ++ segs.drop ce) := by
    rw [show segs.drop ce = (segs.drop cs).drop (ce - cs) from by
      rw [List.drop_drop]
      congr 1
      omega]
    rw [List.take_append_drop, List.take_append_drop]
  have htlen : (segs.take cs).length = cs := by
    rw [List.length_take]
    omega
  have hmlen : ((segs.drop cs).take (ce - cs)).length = ce - cs := by
    rw [List.length_take, List.length_drop]
    omega
  have hmid0 : ∀ v ∈ (segs.drop cs).take (ce - cs), v = 0 := by
    intro v hv
    obtain ⟨p, hp, hpv⟩ := List.getElem_of_mem hv
    rw [List.getElem_take, List.getElem_drop] at hpv
    have hplt : p < ce - cs := by omega
    have hinb : cs + p < segs.length := by omega
    have := hz (cs + p) (by omega) (by omega)
    rw [List.getD_eq_getElem _ _ hinb] at this
    omega
  conv_rhs => rw [hsplit]
  rw [asmFirstGo_append, asmFirstGo_append, htlen, hmlen,
    asmFirstGo_zeros _ hmid0]
  congr 1
  omega

/-- One 16-bit group of a 64-bit half, in divide-and-remainder form. -/
theorem seg_div_mod (m k : Nat) : (m >>> k) &&& 0xffff = m / 2 ^ k % 2 ^ 16 := by
  rw [Nat.shiftRight_eq_div_pow,
    show (0xffff : Nat) = 2 ^ 16 - 1 by norm_num,
    Nat.and_pow_two_sub_one_eq_mod]

/-- The forward pass over a literal eight-element vector, reduced. -/
theorem asmFirstGo_eight (a b c d e f g h n0 h0 : Nat) :
    asmFirstGo [a, b, c, d, e, f, g, h] 0 (n0, h0)
      = ((((n0 ||| a <<< 48) ||| b <<< 32) ||| c <<< 16) ||| d <<< 0,
         (((h0 ||| e <<< 48) ||| f <<< 32) ||| g <<< 16) ||| h <<< 0) := rfl

/-- Four disjoint 16-bit slots ored together reassemble the 64-bit
half they were cut from. -/
theorem four_slots (m : Nat) (hm : m < 2 ^ 64) :
    (((0 ||| (m / 2 ^ 48 % 2 ^ 16) <<< 48) ||| (m / 2 ^ 32 % 2 ^ 16) <<< 32)
        ||| (m / 2 ^ 16 % 2 ^ 16) <<< 16) ||| (m / 2 ^ 0 % 2 ^ 16) <<< 0 = m := by
  have e1 : (0 : Nat) ||| (m / 2 ^ 48 % 2 ^ 16) <<< 48
      = m / 2 ^ 48 % 2 ^ 16 * 2 ^ 48 := by
    rw [Nat.zero_or, Nat.shiftLeft_eq]
  rw [e1]
  have e2 : m / 2 ^ 48 % 2 ^ 16 * 2 ^ 48 ||| (m / 2 ^ 32 % 2 ^ 16) <<< 32
      = m / 2 ^ 48 % 2 ^ 16 * 2 ^ 48 + m / 2 ^ 32 % 2 ^ 16 * 2 ^ 32 :=
    or_middle (by omega) (by omega)
  rw [e2]
  have e3 : m / 2 ^ 48 % 2 ^ 16 * 2 ^ 48 + m / 2 ^ 32 % 2 ^ 16 * 2 ^ 32
        ||| (m / 2 ^ 16 % 2 ^ 16) <<< 16
      = m / 2 ^ 48 % 2 ^ 16 * 2 ^ 48 + m / 2 ^ 32 % 2 ^ 16 * 2 ^ 32
        + m / 2 ^ 16 % 2 ^ 16 * 2 ^ 16 :=
    or_middle (by omega) (by omega)
  rw [e3]
  have e4 : m / 2 ^ 48 % 2 ^ 16 * 2 ^ 48 + m / 2 ^ 32 % 2 ^ 16 * 2 ^ 32
        + m / 2 ^ 16 % 2 ^ 16 * 2 ^ 16 ||| (m / 2 ^ 0 % 2 ^ 16) <<< 0
      = m / 2 ^ 48 % 2 ^ 16 * 2 ^ 48 + m / 2 ^ 32 % 2 ^ 16 * 2 ^ 32
        + m / 2 ^ 16 % 2 ^ 16 * 2 ^ 16 + m / 2 ^ 0 % 2 ^ 16 * 2 ^ 0 :=
    or_middle (by omega) (by omega)
  rw [e4]
  omega

/-- The forward assembly pass over the segmentized vector restores the
two halves. -/
theorem asmFirstGo_segmentize (x : V6) (hn : x.network < 2 ^ 64)
    (hh : x.host < 2 ^ 64) :
    asmFirstGo (segmentize x) 0 (0, 0) = (x.network, x.host) := by
  unfold segmentize
  rw [asmFirstGo_eight]
  simp only [seg_div_mod]
  rw [four_slots x.network hn, four_slots x.host hh]

/-! ### Parsing the rendered string -/

theorem parse6core_ended (str : List Char) {body : List Char} {u0 : Bool}
    {f s : List Nat} {u : Bool} {seg : List Char}
    (h : p6loop body [] [] [] u0 = .ended f s u seg) :
    parse6core str body u0 =
      if str.getLast? = some ':' ∧ ¬ (u ∧ s = []) then none
      else
        if ¬ str.getLast? = some ':' then
          (if u then
            (if f.length + (s ++ [parse_segment seg]).length ≥ 8 then none
             else some (assemble f (s ++ [parse_segment seg])))
           else
            (if (f ++ [parse_segment seg]).length = 8 then
              some (assemble (f ++ [parse_segment seg]) s)
             else none))
        else
          (if u then
            (if f.length + s.length ≥ 8 then none else some (assemble f s))
           else (if f.length = 8 then some (assemble f s) else none)) := by
  unfold parse6core
  rw [h]

theorem parse6_nonColon {c : Char} {t : List Char} (hc : ¬ c = ':') :
    parse6 (c :: t) = parse6core (c :: t) (c :: t) false := by
  simp only [parse6]
  rw [if_neg hc]

theorem parse6_colon (r2 : List Char) :
    parse6 (':' :: ':' :: r2) = parse6core (':' :: ':' :: r2) r2 true := rfl

/-- Parsing a rendering without any `::`. -/
theorem parse6_collapse_all (segs : List Nat) (hlen : segs.length = 8)
    (hval : ∀ v ∈ segs, v < 2 ^ 16) :
    parse6 (joinColon (segs.map hexRepr)) = some (asmFirstGo segs 0 (0, 0)) := by
  have hne : segs ≠ [] := by
    intro h0
    rw [h0] at hlen
    simp at hlen
  have hdecomp : segs.dropLast ++ [segs.getLast hne] = segs :=
    List.dropLast_append_getLast hne
  have hinitlen : segs.dropLast.length = 7 := by
    rw [List.length_dropLast, hlen]
  have hinitne : segs.dropLast ≠ [] := by
    intro h0
    rw [h0] at hinitlen
    simp at hinitlen
  obtain ⟨b0, before2, hb⟩ := List.exists_cons_of_ne_nil hinitne
  have hsegs_cons : segs = b0 :: (before2 ++ [segs.getLast hne]) := by
    conv_lhs => rw [← hdecomp, hb]
    simp
  obtain ⟨c, t, hjc, hchex⟩ :=
    joinColon_cons_head b0 ((before2 ++ [segs.getLast hne]).map hexRepr)
  have hstr2 : joinColon (segs.map hexRepr) = c :: t := by
    conv_lhs => rw [hsegs_cons, List.map_cons]
    exact hjc
  rw [hstr2, parse6_nonColon (isHexDigit_ne_colon hchex), ← hstr2]
  have hp6 : p6loop (joinColon (segs.map hexRepr)) [] [] [] false
      = .ended segs.dropLast [] false (hexRepr (segs.getLast hne)) := by
    conv_lhs => rw [← hdecomp]
    rw [p6loop_joinColon_end segs.dropLast (segs.getLast hne)
      (by rw [hdecomp]; exact hval) [] [] false]
    simp
  rw [parse6core_ended _ hp6]
  obtain ⟨P, hP⟩ := joinColon_snoc_decomp (segs.dropLast.map hexRepr)
    (hexRepr (segs.getLast hne))
  have hmapsnoc : segs.map hexRepr
      = segs.dropLast.map hexRepr ++ [hexRepr (segs.getLast hne)] := by
    conv_lhs => rw [← hdecomp]
    rw [List.map_append]
    rfl
  have hlast : ¬ (joinColon (segs.map hexRepr)).getLast? = some ':' := by
    rw [hmapsnoc, hP]
    obtain ⟨cl, hcl, hclhex⟩ := getLast_append_hexRepr P (segs.getLast hne)
    rw [hcl]
    intro hcc
    exact isHexDigit_ne_colon hclhex (by injection hcc)
  rw [if_neg (fun hcon => hlast hcon.1), if_pos hlast, if_neg (by decide),
    parse_segment_hexRepr (hval _ (List.getLast_mem hne)), hdecomp,
    if_pos hlen]
  rfl

/-- Parsing a rendering whose zero run `[cs, ce)` was compressed. -/
theorem parse6_collapse_run (segs : List Nat) (cs ce : Nat) (hlen : segs.length = 8)
    (hval : ∀ v ∈ segs, v < 2 ^ 16) (h2 : cs + 2 ≤ ce) (hce : ce ≤ 8)
    (hz : ∀ j, cs ≤ j → j < ce → segs.getD j 1 = 0) :
    parse6 (joinColon ((segs.take cs).map hexRepr)
      ++ ':' :: ':' :: joinColon ((segs.drop ce).map hexRepr))
      = some (asmFirstGo segs 0 (0, 0)) := by
  obtain ⟨body, u0, hparse, hbody⟩ :
      ∃ (body : List Char) (u0 : Bool),
        parse6 (joinColon ((segs.take cs).map hexRepr)
          ++ ':' :: ':' :: joinColon ((segs.drop ce).map hexRepr))
          = parse6core (joinColon ((segs.take cs).map hexRepr)
              ++ ':' :: ':' :: joinColon ((segs.drop ce).map hexRepr)) body u0
        ∧ p6loop body [] [] [] u0
          = p6loop (joinColon ((segs.drop ce).map hexRepr)) [] (segs.take cs) [] true := by
    by_cases hcs0 : cs = 0
    · refine ⟨joinColon ((segs.drop ce).map hexRepr), true, ?_, ?_⟩
      · rw [hcs0]
        simp only [List.take_zero, List.map_nil]
        exact parse6_colon _
      · rw [hcs0]
        simp [List.take_zero]
    · have htake_len : (segs.take cs).length = cs := by
        rw [List.length_take]
        omega
      have htne : segs.take cs ≠ [] := by
        intro h0
        rw [h0] at htake_len
        simp at htake_len
        omega
      obtain ⟨b0, before2, hb⟩ := List.exists_cons_of_ne_nil htne
      obtain ⟨c, t, hjc, hchex⟩ := joinColon_cons_head b0 (before2.map hexRepr)
      have hmapc : (segs.take cs).map hexRepr = hexRepr b0 :: before2.map hexRepr := by
        rw [hb]
        rfl
      refine ⟨joinColon ((segs.take cs).map hexRepr)
          ++ ':' :: ':' :: joinColon ((segs.drop ce).map hexRepr), false, ?_, ?_⟩
      · conv_lhs => rw [hmapc, hjc, List.cons_append]
        rw [parse6_nonColon (isHexDigit_ne_colon hchex)]
        rw [← List.cons_append, ← hjc, ← hmapc]
      · rw [p6loop_joinColon (segs.take cs)
          (fun v hv => hval v (List.mem_of_mem_take hv)) htne _ [] [] false]
        simp only [Bool.false_eq_true, if_false, List.nil_append]
        rw [p6loop_colon_switch]
  by_cases hce8 : ce = 8
  · have hdrop : segs.drop ce = [] := by
      rw [hce8]
      exact List.drop_eq_nil_of_le (by omega)
    have hafter : p6loop (joinColon ((segs.drop ce).map hexRepr)) []
        (segs.take cs) [] true = .ended (segs.take cs) [] true [] := by
      rw [hdrop]
      rfl
    rw [hparse, parse6core_ended _ (hbody.trans hafter)]
    have hg : (joinColon ((segs.take cs).map hexRepr)
        ++ ':' :: ':' :: joinColon ((segs.drop ce).map hexRepr)).getLast?
        = some ':' := by
      rw [hdrop]
      rw [show (':' :: ':' :: joinColon (([] : List Nat).map hexRepr))
          = [':'] ++ [':'] from rfl, ← List.append_assoc]
      exact List.getLast?_concat _
    rw [if_neg (fun hcon => hcon.2 ⟨rfl, rfl⟩), if_neg (fun hnn => hnn hg),
      if_pos rfl]
    have htlen : (segs.take cs).length = cs := by
      rw [List.length_take]
      omega
    rw [if_neg (by
      simp only [htlen, List.length_nil]
      omega)]
    rw [show ([] : List Nat) = segs.drop ce from hdrop.symm,
      assemble_take_drop segs cs ce (by omega) (by omega) hlen hz]
  · have hdlen : (segs.drop ce).length = 8 - ce := by
      rw [List.length_drop, hlen]
    have hdne : segs.drop ce ≠ [] := by
      intro h0
      rw [h0] at hdlen
      simp at hdlen
      omega
    have hdecomp : (segs.drop ce).dropLast ++ [(segs.drop ce).getLast hdne]
        = segs.drop ce := List.dropLast_append_getLast hdne
    have hafter : p6loop (joinColon ((segs.drop ce).map hexRepr)) []
        (segs.take cs) [] true
        = .ended (segs.take cs) (segs.drop ce).dropLast true
            (hexRepr ((segs.drop ce).getLast hdne)) := by
      conv_lhs => rw [← hdecomp]
      rw [p6loop_joinColon_end _ _
        (by rw [hdecomp]; exact fun v hv => hval v (List.mem_of_mem_drop hv))
        (segs.take cs) [] true]
      simp
    rw [hparse, parse6core_ended _ (hbody.trans hafter)]
    obtain ⟨P2, hP2⟩ := joinColon_snoc_decomp ((segs.drop ce).dropLast.map hexRepr)
      (hexRepr ((segs.drop ce).getLast hdne))
    have hmapsnoc : (segs.drop ce).map hexRepr
        = (segs.drop ce).dropLast.map hexRepr
          ++ [hexRepr ((segs.drop ce).getLast hdne)] := by
      conv_lhs => rw [← hdecomp]
      rw [List.map_append]
      rfl
    have hlast : ¬ (joinColon ((segs.take cs).map hexRepr)
        ++ ':' :: ':' :: joinColon ((segs.drop ce).map hexRepr)).getLast?
        = some ':' := by
      rw [hmapsnoc, hP2,
        show (':' :: ':' :: (P2 ++ hexRepr ((segs.drop ce).getLast hdne)))
          = (':' :: ':' :: P2) ++ hexRepr ((segs.drop ce).getLast hdne) from rfl,
        ← List.append_assoc]
      obtain ⟨cl, hcl, hclhex⟩ := getLast_append_hexRepr
        (joinColon ((segs.take cs).map hexRepr) ++ (':' :: ':' :: P2))
        ((segs.drop ce).getLast hdne)
      rw [hcl]
      intro hcc
      exact isHexDigit_ne_colon hclhex (by injection hcc)
    rw [if_neg (fun hcon => hlast hcon.1), if_pos hlast, if_pos rfl]
    have htlen : (segs.take cs).length = cs := by
      rw [List.length_take]
      omega
    have hdllen : (segs.drop ce).dropLast.length = 8 - ce - 1 := by
      rw [List.length_dropLast, hdlen]
    rw [if_neg (by
      simp only [htlen, List.length_append, hdllen, List.length_cons,
        List.length_nil]
      omega)]
    rw [parse_segment_hexRepr
      (hval _ (List.mem_of_mem_drop (List.getLast_mem hdne))), hdecomp,
      assemble_take_drop segs cs ce (by omega) (by omega) hlen hz]

/-- Parsing any canonical rendering of an eight-group vector recovers
the forward assembly of the vector. -/
theorem parse6_collapse (segs : List Nat) (hlen : segs.length = 8)
    (hval : ∀ v ∈ segs, v < 2 ^ 16) :
    parse6 (collapse segs) = some (asmFirstGo segs 0 (0, 0)) := by
  rcases collapseRun_spec segs with hA | ⟨hmr, h2, _, _⟩
  · rw [collapse_none hA]
    exact parse6_collapse_all segs hlen hval
  · obtain ⟨⟨hab, hblen, hzr⟩, _, _⟩ := hmr
    rw [collapse_run (by omega) hblen]
    exact parse6_collapse_run segs (collapseRun segs).1 (collapseRun segs).2
      hlen hval h2 (by omega) (fun j h1 h2 => hzr j h1 h2)

/-- `IPv6::parse ∘ IPv6::to_string` is the identity on the two halves. -/
theorem parse6_to_string6 (x : V6) (hn : x.network < 2 ^ 64)
    (hh : x.host < 2 ^ 64) :
    parse6 (to_string6 x) = some (x.network, x.host) := by
  have hval : ∀ v ∈ segmentize x, v < 2 ^ 16 := by
    intro v hv
    unfold segmentize at hv
    simp only [List.mem_cons, List.not_mem_nil, or_false] at hv
    rcases hv with rfl | rfl | rfl | rfl | rfl | rfl | rfl | rfl <;>
      (rw [seg_div_mod]; omega)
  rw [show to_string6 x = collapse (segmentize x) from rfl,
    parse6_collapse (segmentize x) rfl hval, asmFirstGo_segmentize x hn hh]

/-! ### Zero runs extend to maximal runs; rendered digit shapes -/

theorem extend_right (segs : List Nat) :
    ∀ (k a b : Nat), segs.length - b ≤ k → IsZeroRun segs a b →
      ∃ b2, b ≤ b2 ∧ IsZeroRun segs a b2 ∧ ¬ segZero segs b2 := by
  intro k
  induction k with
  | zero =>
    intro a b hk hr
    exact ⟨b, le_refl b, hr, segZero_ge (by omega)⟩
  | succ k ih =>
    intro a b hk hr
    by_cases hb : segZero segs b
    · have hblt : b < segs.length := by
        by_contra hc
        exact segZero_ge (by omega) hb
      have hr2 : IsZeroRun segs a (b + 1) := by
        obtain ⟨h1, h2, h3⟩ := hr
        refine ⟨by omega, by omega, fun j hj1 hj2 => ?_⟩
        by_cases hjb : j = b
        · rw [hjb]
          exact hb
        · exact h3 j hj1 (by omega)
      obtain ⟨b2, hb2, hr3, hnz⟩ := ih a (b + 1) (by omega) hr2
      exact ⟨b2, by omega, hr3, hnz⟩
    · exact ⟨b, le_refl b, hr, hb⟩

theorem extend_left (segs : List Nat) :
    ∀ (a b : Nat), IsZeroRun segs a b →
      ∃ a2, a2 ≤ a ∧ IsZeroRun segs a2 b ∧ (a2 = 0 ∨ ¬ segZero segs (a2 - 1)) := by
  intro a
  induction a with
  | zero =>
    intro b hr
    exact ⟨0, le_refl 0, hr, Or.inl rfl⟩
  | succ a ih =>
    intro b hr
    by_cases ha : segZero segs a
    · have hr2 : IsZeroRun segs a b := by
        obtain ⟨h1, h2, h3⟩ := hr
        refine ⟨by omega, h2, fun j hj1 hj2 => ?_⟩
        by_cases hja : j = a
        · rw [hja]
          exact ha
        · exact h3 j (by omega) hj2
      obtain ⟨a2, ha2, hr3, hedge⟩ := ih b hr2
      exact ⟨a2, by omega, hr3, hedge⟩
    · exact ⟨a + 1, le_refl _, hr, Or.inr (by simpa using ha)⟩

/-- Every nonempty zero run sits inside a maximal one. -/
theorem exists_maxrun {segs : List Nat} {a b : Nat} (h : IsZeroRun segs a b)
    ( _hab : a < b) :
    ∃ a2 b2, MaxRun segs a2 b2 ∧ a2 ≤ a ∧ b ≤ b2 := by
  obtain ⟨b2, hb2, hr2, hnz⟩ :=
    extend_right segs (segs.length - b) a b (le_refl _) h
  obtain ⟨a2, ha2, hr3, hedge⟩ := extend_left segs a b2 hr2
  exact ⟨a2, b2, ⟨hr3, hedge, hnz⟩, ha2, hb2⟩

/-- If the scan chose not to compress, no maximal zero run has two or
more groups. -/
theorem collapseRun_none {segs : List Nat}
    (h : (collapseRun segs).1 = segs.length) :
    ∀ a b, MaxRun segs a b → b - a ≤ 1 := by
  have hspec := scanZeros_spec segs segs 0 none segs.length segs.length
    (List.drop_zero segs).symm (Nat.zero_le _) (fun _ => Or.inl rfl)
    (by intro c hc; cases hc)
    (Or.inl ⟨rfl, rfl, fun a b _ hb => absurd hb (Nat.not_lt_zero b)⟩)
  intro a b hm
  have hble : b < segs.length + 1 := by
    have := hm.1.2.1
    omega
  rcases hspec with ⟨h1, h2, h3⟩ | ⟨hmr, hlt, hce, hmax, htie⟩
  · have := h3 a b hm hble
    omega
  · by_cases hone : (scanZeros segs 0 none segs.length segs.length).2
        - (scanZeros segs 0 none segs.length segs.length).1 = 1
    · have := hmax a b hm hble
      omega
    · unfold collapseRun at h
      rw [if_neg hone] at h
      have hcel : (scanZeros segs 0 none segs.length segs.length).2
          ≤ segs.length := hmr.1.2.1
      omega

/-- Digits printed for any group are decimal digits or lower-case
`a`–`f`. -/
theorem hexRepr_lower {n : Nat} : ∀ c ∈ hexRepr n,
    ('0' ≤ c ∧ c ≤ '9') ∨ ('a' ≤ c ∧ c ≤ 'f') := by
  intro c hc
  unfold hexRepr at hc
  by_cases h0 : n = 0
  · rw [if_pos h0, List.mem_singleton] at hc
    rw [hc]
    decide
  · rw [if_neg h0, List.mem_reverse] at hc
    obtain ⟨d, hd, rfl⟩ := List.mem_map.mp hc
    have hd16 : d < 16 := Nat.digits_lt_base (by norm_num) hd
    have hgen : ∀ d : Nat, d < 16 →
        ('0' ≤ Nat.digitChar d ∧ Nat.digitChar d ≤ '9')
          ∨ ('a' ≤ Nat.digitChar d ∧ Nat.digitChar d ≤ 'f') := by decide
    exact hgen d hd16

/-- A nonzero group is printed without leading zeros. -/
theorem hexRepr_no_leading_zero {n : Nat} (hn : n ≠ 0) :
    (hexRepr n).head? ≠ some '0' := by
  unfold hexRepr
  rw [if_neg hn, List.head?_reverse, List.getLast?_map]
  have hne : Nat.digits 16 n ≠ [] := Nat.digits_ne_nil_iff_ne_zero.mpr hn
  rw [List.getLast?_eq_getLast _ hne]
  have hd16 : (Nat.digits 16 n).getLast hne < 16 :=
    Nat.digits_lt_base (by norm_num) (List.getLast_mem hne)
  have hdz := Nat.getLast_digit_ne_zero 16 hn
  have hgen : ∀ d : Nat, d < 16 → d ≠ 0 → Nat.digitChar d ≠ '0' := by decide
  intro hcc
  exact hgen _ hd16 hdz (by injection hcc)

/-! ## Claim theorems -/

/-- Claim C1 is refuted at `start = 1 ≤ stop = 2` (32-bit width): the
decomposer emits only the block `1/32`, so the address 2, although
inside `[start, stop]`, is not covered — the union of the emitted
blocks is not `[start, stop]`. -/
theorem c1_range_decomposer_counterexample :
    (1 : Nat) ≤ 2 ∧ add 32 1 2 = [(1, 32)] ∧ ¬ covered 32 (add 32 1 2) 2 := by
  refine ⟨by norm_num, by decide, by decide⟩

/-- Claim C1 (amended): for `start ≤ stop`, the emitted blocks are
aligned, contiguous and in ascending order, pairwise non-overlapping,
no two adjacent ones mergeable into one larger aligned block, and their
union is exactly the interval `[start, e)` where `e` is either `stop`
(final address dropped when the cursor lands exactly on `stop`) or
`stop + 1` (full coverage). -/
theorem c1_range_decomposer_amended (W start stop : Nat) (hss : start ≤ stop)
    (hs : start < 2 ^ W) (hp : stop < 2 ^ W) :
    ∃ e, (e = stop ∨ e = stop + 1) ∧ DecompProps W start stop e (add W start stop) :=
  addLoop_spec (stop - start) start stop (le_refl _) hss hs hp

/-- Witness for the amended C1 at `W = 32, start = 5, stop = 9`. -/
theorem c1_range_decomposer_amended_witness :
    ∃ e, (e = 9 ∨ e = 9 + 1) ∧ DecompProps 32 5 9 e (add 32 5 9) :=
  c1_range_decomposer_amended 32 5 9 (by norm_num) (by norm_num) (by norm_num)

/-- Claim C2 is refuted: the union of the touching input blocks
0.0.0.0/29 and 0.0.0.8/29 is emitted as those two blocks, which can be
replaced by the single larger aligned block 0.0.0.0/28 (prefix 28
covers exactly their union) — the output is not a minimal CIDR
representation. -/
theorem c2_pipeline_counterexample :
    processBlocks 32 .union [(0, 29), (8, 29)] [] = ([(0, 29), (8, 29)], []) ∧
    ¬ mergeFree 32 (0, 29) (8, 29) := by
  constructor
  · decide
  · intro h
    exact h ⟨28, by norm_num, by decide, by decide⟩

/-- Claim C2 (amended): each output track of the sweep is a
concatenation of greedy decompositions of the flushed sub-ranges, and
within any single flushed sub-range no two adjacent emitted blocks can
be merged into one larger aligned block.  (Blocks emitted by different
flushes may be mergeable — touching input blocks are not merged — and a
single-address flush emits nothing.) -/
theorem c2_pipeline_minimality_amended (W : Nat) (k : Kern) (useB : Bool)
    (ms : List Marker) (h : ∀ m ∈ ms, m.ip < 2 ^ W) :
    (∃ rs : List (Nat × Nat),
      (traverse W k useB ms).1.out = (rs.map fun r => add W r.1 r.2).flatten ∧
      ∀ r ∈ rs, List.Chain' (mergeFree W) (add W r.1 r.2)) ∧
    (∃ rs : List (Nat × Nat),
      (traverse W k useB ms).2.out = (rs.map fun r => add W r.1 r.2).flatten ∧
      ∀ r ∈ rs, List.Chain' (mergeFree W) (add W r.1 r.2)) := by
  obtain ⟨hA, hB⟩ := traverseLoop_flushed k useB ms track0 track0 h
    (flushedOut_nil W) (Nat.two_pow_pos W) (flushedOut_nil W) (Nat.two_pow_pos W)
  constructor
  · obtain ⟨rs, heq, hmem⟩ := hA
    exact ⟨rs, heq, fun r hr => add_mergeFree_chain (hmem r hr).1 (hmem r hr).2⟩
  · obtain ⟨rs, heq, hmem⟩ := hB
    exact ⟨rs, heq, fun r hr => add_mergeFree_chain (hmem r hr).1 (hmem r hr).2⟩

/-- Witness for the amended C2 on the concrete marker list of one A
block `[0, 7]` and one B block `[4, 11]` under the union kernel. -/
theorem c2_pipeline_minimality_amended_witness :
    (∃ rs : List (Nat × Nat),
      (traverse 32 .union false
        [⟨0, .aOpen⟩, ⟨4, .bOpen⟩, ⟨7, .aClose⟩, ⟨11, .bClose⟩]).1.out
        = (rs.map fun r => add 32 r.1 r.2).flatten ∧
      ∀ r ∈ rs, List.Chain' (mergeFree 32) (add 32 r.1 r.2)) ∧
    (∃ rs : List (Nat × Nat),
      (traverse 32 .union false
        [⟨0, .aOpen⟩, ⟨4, .bOpen⟩, ⟨7, .aClose⟩, ⟨11, .bClose⟩]).2.out
        = (rs.map fun r => add 32 r.1 r.2).flatten ∧
      ∀ r ∈ rs, List.Chain' (mergeFree 32) (add 32 r.1 r.2)) :=
  c2_pipeline_minimality_amended 32 .union false
    [⟨0, .aOpen⟩, ⟨4, .bOpen⟩, ⟨7, .aClose⟩, ⟨11, .bClose⟩] (by decide)

/-- Claim C3 is refuted on its difference part: for A = 10.0.0.0/24 and
B = 10.0.0.0/25 the pipeline delivers 10.0.0.128/25 to the
`DiffAdapter("-")` callback (second component) and nothing to the
`DiffAdapter("+")` callback (first component) — the opposite of the
claimed labels. -/
theorem c3_scenario_counterexample :
    processBlocks 32 .diff [(0x0A000000, 24)] [(0x0A000000, 25)]
      = ([], [(0x0A000080, 25)]) ∧
    (processBlocks 32 .diff [(0x0A000000, 24)] [(0x0A000000, 25)]).1
      ≠ [(0x0A000080, 25)] := by
  constructor
  · decide
  · decide

/-- Claim C3 (amended): intersection emits exactly 10.0.0.0/25, union
exactly 10.0.0.0/24, and the difference operation emits 10.0.0.128/25
labeled "-" (the `A \ B` orientation) and nothing labeled "+".  The
same results are obtained for the other admissible `std::sort` order of
the two equal-address open markers. -/
theorem c3_scenario_amended :
    processBlocks 32 .inter [(0x0A000000, 24)] [(0x0A000000, 25)]
      = ([(0x0A000000, 25)], []) ∧
    processBlocks 32 .union [(0x0A000000, 24)] [(0x0A000000, 25)]
      = ([(0x0A000000, 24)], []) ∧
    processBlocks 32 .diff [(0x0A000000, 24)] [(0x0A000000, 25)]
      = ([], [(0x0A000080, 25)]) ∧
    (traverse 32 .inter false [⟨0x0A000000, .bOpen⟩, ⟨0x0A000000, .aOpen⟩,
      ⟨0x0A00007F, .bClose⟩, ⟨0x0A0000FF, .aClose⟩]).1.out = [(0x0A000000, 25)] ∧
    (traverse 32 .union false [⟨0x0A000000, .bOpen⟩, ⟨0x0A000000, .aOpen⟩,
      ⟨0x0A00007F, .bClose⟩, ⟨0x0A0000FF, .aClose⟩]).1.out = [(0x0A000000, 24)] ∧
    (traverse 32 .diff true [⟨0x0A000000, .bOpen⟩, ⟨0x0A000000, .aOpen⟩,
      ⟨0x0A00007F, .bClose⟩, ⟨0x0A0000FF, .aClose⟩]).1.out = [] ∧
    (traverse 32 .diff true [⟨0x0A000000, .bOpen⟩, ⟨0x0A000000, .aOpen⟩,
      ⟨0x0A00007F, .bClose⟩, ⟨0x0A0000FF, .aClose⟩]).2.out = [(0x0A000080, 25)] := by
  refine ⟨by decide, by decide, by decide, by decide, by decide, by decide, by decide⟩

/-- Claim C4 is refuted: two sorted marker sequences that are
permutations of one another (differing only in the relative order of
the close-of-A and open-of-B markers sharing address 5) make the sweep
emit different outputs under the difference kernel, so the boundary
flag used at a toggle does depend on the relative order of same-address
markers — it is not determined by "the group contains an OPEN marker". -/
theorem c4_order_counterexample :
    List.Perm
      ([⟨0, .aOpen⟩, ⟨5, .aClose⟩, ⟨5, .bOpen⟩, ⟨9, .bClose⟩] : List Marker)
      ([⟨0, .aOpen⟩, ⟨5, .bOpen⟩, ⟨5, .aClose⟩, ⟨9, .bClose⟩] : List Marker) ∧
    List.Pairwise (fun a b : Marker => a.ip ≤ b.ip)
      [⟨0, .aOpen⟩, ⟨5, .aClose⟩, ⟨5, .bOpen⟩, ⟨9, .bClose⟩] ∧
    List.Pairwise (fun a b : Marker => a.ip ≤ b.ip)
      [⟨0, .aOpen⟩, ⟨5, .bOpen⟩, ⟨5, .aClose⟩, ⟨9, .bClose⟩] ∧
    (traverse 32 .diff true
        [⟨0, .aOpen⟩, ⟨5, .aClose⟩, ⟨5, .bOpen⟩, ⟨9, .bClose⟩]).1.out ≠
      (traverse 32 .diff true
        [⟨0, .aOpen⟩, ⟨5, .bOpen⟩, ⟨5, .aClose⟩, ⟨9, .bClose⟩]).1.out := by
  refine ⟨by decide, by decide, by decide, by decide⟩

/-- Claim C4 (amended): for every group of markers sharing one address,
all count deltas of the group are applied before the kernel is
evaluated, and the kernel is evaluated exactly once per group; but the
boundary-inclusion flag is the open/close kind of the LAST marker of
the group in the sorted order (so it is order-dependent), not "the
group contains at least one OPEN marker".  Formally, the sweep equals
its grouped restatement `traverseGrouped` over the same-address groups. -/
theorem c4_sweep_grouping_amended (W : Nat) (k : Kern) (useB : Bool)
    (ms : List Marker) (A B : Track) :
    traverseLoop W k useB ms A B =
      traverseGrouped W k useB (groupsByIp ms) A B :=
  traverse_eq_grouped_aux W k useB ms.length ms (le_refl _) A B

/-- Claim C7: the union kernel is true iff `countA > 0` or `countB > 0`,
the intersection kernel iff `countA > 0` and `countB > 0`, the
difference kernel iff `countA == 0` and `countB > 0`; union and
intersection report themselves symmetric and difference reports itself
asymmetric. -/
theorem c7_kernel_predicates (a b : Int) (_ha : 0 ≤ a) (_hb : 0 ≤ b) :
    (kernEval .union a b = true ↔ 0 < a ∨ 0 < b) ∧
    (kernEval .inter a b = true ↔ 0 < a ∧ 0 < b) ∧
    (kernEval .diff a b = true ↔ a = 0 ∧ 0 < b) ∧
    kernSym .union = true ∧ kernSym .inter = true ∧ kernSym .diff = false := by
  exact ⟨by simp [kernEval], by simp [kernEval], by simp [kernEval], rfl, rfl, rfl⟩

/-- Witness for C7 at the concrete counts (1, 0). -/
theorem c7_kernel_predicates_witness :
    (kernEval .union 1 0 = true ↔ (0 : Int) < 1 ∨ (0 : Int) < 0) ∧
    (kernEval .inter 1 0 = true ↔ (0 : Int) < 1 ∧ (0 : Int) < 0) ∧
    (kernEval .diff 1 0 = true ↔ (1 : Int) = 0 ∧ (0 : Int) < 0) ∧
    kernSym .union = true ∧ kernSym .inter = true ∧ kernSym .diff = false :=
  c7_kernel_predicates 1 0 (by decide) (by decide)

/-- Claim C10: decomposing the single-address range `[x, x]` invokes
the callback zero times: the loop of `add` runs only while
`start < stop`, which is initially false. -/
theorem c10_single_address_range (W x : Nat) : add W x x = [] := by
  unfold add
  rw [Nat.sub_self]
  rfl

/-- Claim C9: for either width W and any prefix `p ≤ W`, the floor
zeroes the low `W - p` bits and the ceiling sets them, with the `p = 0`
case handled by the explicit special branch of the source (yielding the
all-zero and all-one values). -/
theorem c9_floor_ceiling :
    (∀ v p, v < 2 ^ 32 → p ≤ 32 →
      (∀ i, (network_zeros 32 v p).testBit i = (decide (32 - p ≤ i) && v.testBit i)) ∧
      (∀ i, (network_ones 32 v p).testBit i = (decide (i < 32 - p) || v.testBit i)) ∧
      network_zeros 32 v 0 = 0 ∧ network_ones 32 v 0 = 2 ^ 32 - 1) ∧
    (∀ x : V6, x.network < 2 ^ 64 → x.host < 2 ^ 64 → ∀ p, p ≤ 128 →
      (∀ i, (toVal (zeros6 x p)).testBit i =
        (decide (128 - p ≤ i) && (toVal x).testBit i)) ∧
      (∀ i, (toVal (ones6 x p)).testBit i =
        (decide (i < 128 - p) || (toVal x).testBit i)) ∧
      zeros6 x 0 = ⟨0, 0⟩ ∧ ones6 x 0 = ⟨2 ^ 64 - 1, 2 ^ 64 - 1⟩) := by
  constructor
  · intro v p hv hp
    exact ⟨testBit_zeros hv hp, testBit_ones hv hp, zeros_zero 32 v, ones_zero 32 v⟩
  · intro x hn hh p hp
    have hv : toVal x < 2 ^ 128 := by
      unfold toVal
      have : (2 : Nat) ^ 128 = 2 ^ 64 * 2 ^ 64 := by norm_num
      nlinarith
    refine ⟨?_, ?_, rfl, rfl⟩
    · intro i
      rw [toVal_zeros6 x hn hh hp]
      exact testBit_zeros hv hp i
    · intro i
      rw [toVal_ones6 x hn hh hp]
      exact testBit_ones hv hp i

/-- Witness for C9, instantiated at `v = 5, p = 30` for the 32-bit
variant and at `x = (0, 5), p = 126` for the 128-bit variant. -/
theorem c9_floor_ceiling_witness :
    ((∀ i, (network_zeros 32 5 30).testBit i = (decide (32 - 30 ≤ i) && (5 : Nat).testBit i)) ∧
     (∀ i, (network_ones 32 5 30).testBit i = (decide (i < 32 - 30) || (5 : Nat).testBit i)) ∧
     network_zeros 32 5 0 = 0 ∧ network_ones 32 5 0 = 2 ^ 32 - 1) ∧
    ((∀ i, (toVal (zeros6 ⟨0, 5⟩ 126)).testBit i =
        (decide (128 - 126 ≤ i) && (toVal ⟨0, 5⟩).testBit i)) ∧
     (∀ i, (toVal (ones6 ⟨0, 5⟩ 126)).testBit i =
        (decide (i < 128 - 126) || (toVal ⟨0, 5⟩).testBit i)) ∧
     zeros6 ⟨0, 5⟩ 0 = ⟨0, 0⟩ ∧ ones6 ⟨0, 5⟩ 0 = ⟨2 ^ 64 - 1, 2 ^ 64 - 1⟩) :=
  ⟨c9_floor_ceiling.1 5 30 (by norm_num) (by norm_num),
   c9_floor_ceiling.2 ⟨0, 5⟩ (by norm_num) (by norm_num) 126 (by norm_num)⟩

/-- Claim C5: for every valid value of either width, parsing the
canonical rendering returns the value again — `parse (render v) = v`
for 32-bit values below `2^32` and for 128-bit values given as two
64-bit halves. -/
theorem c5_parse_render_roundtrip :
    (∀ v : Nat, v < 2 ^ 32 → parse4 (to_string4 v) = some v) ∧
    (∀ x : V6, x.network < 2 ^ 64 → x.host < 2 ^ 64 →
      parse6 (to_string6 x) = some (x.network, x.host)) :=
  ⟨fun v hv => parse4_roundtrip v hv, fun x hn hh => parse6_to_string6 x hn hh⟩

theorem c5_parse_render_roundtrip_witness :
    parse4 (to_string4 0) = some 0 ∧
    parse4 (to_string4 4294967295) = some 4294967295 ∧
    parse6 (to_string6 ⟨0, 0⟩) = some (0, 0) ∧
    parse6 (to_string6 ⟨18446744073709551615, 18446744073709551615⟩)
      = some (18446744073709551615, 18446744073709551615) ∧
    parse6 (to_string6 ⟨0x20010db800000000, 1⟩) = some (0x20010db800000000, 1) :=
  ⟨c5_parse_render_roundtrip.1 0 (by norm_num),
   c5_parse_render_roundtrip.1 4294967295 (by norm_num),
   c5_parse_render_roundtrip.2 ⟨0, 0⟩ (by norm_num) (by norm_num),
   c5_parse_render_roundtrip.2 ⟨18446744073709551615, 18446744073709551615⟩
     (by norm_num) (by norm_num),
   c5_parse_render_roundtrip.2 ⟨0x20010db800000000, 1⟩ (by norm_num) (by norm_num)⟩

/-- Claim C8: the 32-bit parser rejects `"1.2.3.4.5"` (five octets) and
the 128-bit parser rejects `"2001::db8::1"` (two `::` markers); both
report failure (`throw MalformedAddress`, modelled as `none`). -/
theorem c8_malformed_inputs :
    parse4 ("1.2.3.4.5".toList) = none ∧ parse6 ("2001::db8::1".toList) = none := by
  constructor <;> decide

/-- Claim C6: the rendering compresses with `::` exactly the first
longest run of two or more consecutive zero groups (an isolated zero
group, or no run at all, leaves all eight groups printed), and every
group is hex-formatted lower-case without leading zeros (`0` for a
zero group). -/
theorem c6_canonical_compression (x : V6) :
    (∀ g : Nat, ∀ c ∈ hexRepr g,
        ('0' ≤ c ∧ c ≤ '9') ∨ ('a' ≤ c ∧ c ≤ 'f')) ∧
    (∀ g : Nat, g ≠ 0 → (hexRepr g).head? ≠ some '0') ∧
    hexRepr 0 = ['0'] ∧
    ((¬ ∃ a b, IsZeroRun (segmentize x) a b ∧ a + 2 ≤ b) →
      to_string6 x = joinColon ((segmentize x).map hexRepr)) ∧
    ((∃ a b, IsZeroRun (segmentize x) a b ∧ a + 2 ≤ b) →
      ∃ cs ce, IsZeroRun (segmentize x) cs ce ∧ cs + 2 ≤ ce ∧
        (∀ a b, IsZeroRun (segmentize x) a b → b - a ≤ ce - cs) ∧
        (∀ a b, IsZeroRun (segmentize x) a b → b - a = ce - cs → cs ≤ a) ∧
        to_string6 x = joinColon (((segmentize x).take cs).map hexRepr)
          ++ ':' :: ':' :: joinColon (((segmentize x).drop ce).map hexRepr)) := by
  refine ⟨fun g => hexRepr_lower, fun g hg => hexRepr_no_leading_zero hg, rfl,
    ?_, ?_⟩
  · intro hno
    rcases collapseRun_spec (segmentize x) with hA | ⟨hmr, h2, _, _⟩
    · exact collapse_none hA
    · exact absurd ⟨_, _, hmr.1, h2⟩ hno
  · rintro ⟨a, b, hr, hab⟩
    rcases collapseRun_spec (segmentize x) with hA | ⟨hmr, h2, hmax, htie⟩
    · exfalso
      obtain ⟨a2, b2, hm2, ha2, hb2⟩ := exists_maxrun hr (by omega)
      have := collapseRun_none hA a2 b2 hm2
      omega
    · refine ⟨(collapseRun (segmentize x)).1, (collapseRun (segmentize x)).2,
        hmr.1, h2, ?_, ?_, collapse_run (by omega) hmr.1.2.1⟩
      · intro a2 b2 hr2
        by_cases hab2 : a2 < b2
        · obtain ⟨a3, b3, hm3, ha3, hb3⟩ := exists_maxrun hr2 hab2
          have := hmax a3 b3 hm3
          omega
        · omega
      · intro a2 b2 hr2 hlen2
        by_cases hab2 : a2 < b2
        · obtain ⟨a3, b3, hm3, ha3, hb3⟩ := exists_maxrun hr2 hab2
          have hle := hmax a3 b3 hm3
          have htie2 := htie a3 b3 hm3 (by omega)
          omega
        · omega

theorem c6_canonical_compression_witness :
    ∃ cs ce, IsZeroRun (segmentize ⟨0x20010db800000000, 1⟩) cs ce ∧ cs + 2 ≤ ce ∧
      (∀ a b, IsZeroRun (segmentize ⟨0x20010db800000000, 1⟩) a b →
        b - a ≤ ce - cs) ∧
      (∀ a b, IsZeroRun (segmentize ⟨0x20010db800000000, 1⟩) a b →
        b - a = ce - cs → cs ≤ a) ∧
      to_string6 ⟨0x20010db800000000, 1⟩
        = joinColon (((segmentize ⟨0x20010db800000000, 1⟩).take cs).map hexRepr)
          ++ ':' :: ':' :: joinColon
              (((segmentize ⟨0x20010db800000000, 1⟩).drop ce).map hexRepr) := by
  refine (c6_canonical_compression ⟨0x20010db800000000, 1⟩).2.2.2.2 ?_
  refine ⟨2, 7, ⟨by norm_num, by decide, ?_⟩, by norm_num⟩
  intro j h1 h2
  interval_cases j <;> decide

end BgpCompare
